import Mathlib

/-!
# jlcut: selector parsing and line projection

A shallow embedding of `src/jlcut.c` (`ListParseOpt`, `NumParse`,
`SelectorInit`, `SelectorAppend`, `ProcessFile`, `NextChar` and the delimiter
options of `main`) and theorems about it.

Conventions of the embedding.

* A byte is a `Nat` (an `unsigned char` value); a C `int` is an `Int`, and
  the only place where the source can leave the 32-bit range, the
  accumulation in `NumParse`, wraps explicitly (`wrap32`).
* A `char *` into a buffer is the list of the bytes from the pointer to the
  end of the buffer; the terminating NUL is implicit, so reading at the end of
  the list reads `0` (`deref`).  A buffer returned by `getline` may hold NUL
  bytes of its own, and the C string functions stop at the first of them.
* A table entry `(ifieldp[i], ifieldn[i])` is the slice of bytes it spans.
  Entry `0` is the empty slice and is left implicit; the list holds the
  entries `1 .. FieldQty`.
* `exit (1)` is a `Failure`.  Reading outside the line buffer or the table
  (undefined in C) is the failure `InvalidAccess`.
-/

namespace Jlcut

/-! ## Constants -/

def MAXLINESZ : Int := 1024

def MAXFIELDS : Nat := 1024

def SELMAX : Nat := 512

def SELENDLINE : Int := (SELMAX : Int) - 1

inductive Mode where
  | NONE
  | BYTE
  | CHAR
  | FIELD
  deriving DecidableEq, Repr

/-- The ways a run stops with `exit (1)`, and `InvalidAccess` for a read that
C leaves undefined. -/
inductive Failure where
  | MalformedRange
  | ValueTooLarge
  | TooManySelectors
  | TooManyFields
  | OutputWriteFailed
  | InternalError
  | InvalidAccess
  deriving DecidableEq, Repr

structure Selector where
  begin : Int
  end_ : Int
  deriving DecidableEq, Repr

/-- The globals `selectors[0 .. selcnt-1]` and `selmax`. -/
structure SelState where
  selectors : List Selector
  selmax : Int
  deriving DecidableEq, Repr

def selcnt (st : SelState) : Nat := st.selectors.length

def SelectorQty (st : SelState) : Nat := selcnt st

def SelectorGetMax (st : SelState) : Int := st.selmax

/-! ## C string primitives -/

/-- The byte `*p`. -/
def deref (p : List Nat) : Nat := p.headD 0

def isdigit (c : Nat) : Bool := decide (48 ≤ c) && decide (c ≤ 57)

def strlen (p : List Nat) : Nat := (p.takeWhile (fun c => c != 0)).length

/-- Length of the initial run of bytes of `p` that occur in `delim`. -/
def strspn (p delim : List Nat) : Nat :=
  (p.takeWhile (fun c => c != 0 && delim.contains c)).length

/-- Length of the initial run of bytes of `p` that do not occur in `delim`. -/
def strcspn (p delim : List Nat) : Nat :=
  (p.takeWhile (fun c => c != 0 && !delim.contains c)).length

/-! ## Selector list -/

def SelectorInit : SelState := { selectors := [], selmax := 0 }

/-- The call `SelectorAppend (begin, end)` on its `begin <= end` path. -/
def SelectorStore (st : SelState) (b e : Int) : Except Failure SelState :=
  if selcnt st ≥ SELMAX then .error .TooManySelectors
  else .ok { selectors := st.selectors ++ [{ begin := b, end_ := e }],
             selmax := if e > st.selmax then e else st.selmax }

/-- The loop `for (i=begin; i>=end; --i) SelectorAppend (i, i);` with `n`
iterations left to run. -/
def SelectorDescend : Nat → Int → SelState → Except Failure SelState
  | 0, _, st => .ok st
  | n + 1, i, st =>
    match SelectorStore st i i with
    | .error f => .error f
    | .ok st1 => SelectorDescend n (i - 1) st1

def SelectorAppend (st : SelState) (b e : Int) : Except Failure SelState :=
  if selcnt st ≥ SELMAX then .error .TooManySelectors
  else if b ≤ e then SelectorStore st b e
  else SelectorDescend (b - e + 1).toNat b st

/-! ## Parsing -/

/-- A C `int` after an arithmetic step: two's complement wrap-around. -/
def wrap32 (x : Int) : Int := (x + 2147483648) % 4294967296 - 2147483648

/-- The loop of `NumParse`: returns `num` and the advanced cursor `q`. -/
def NumParseLoop : List Nat → Int → Int × List Nat
  | [], num => (num, [])
  | c :: q, num =>
    if isdigit c then
      NumParseLoop q (wrap32 (wrap32 (num * 10) + ((c : Int) - 48)))
    else (num, c :: q)

def NumParse (p : List Nat) : Except Failure (Int × List Nat) :=
  let r := NumParseLoop p 0
  if r.1 > MAXLINESZ then .error .ValueTooLarge else .ok r

/-- The `for (p=arg; *p; )` loop of `ListParseOpt`.  Every iteration that
does not leave the loop consumes a comma, so the fuel `length + 1` that
`ListParseOpt` passes never runs out. -/
def ListParseLoop : Nat → List Nat → SelState → Except Failure SelState
  | 0, _, st => .ok st
  | fuel + 1, p, st =>
    if deref p = 0 then .ok st
    else
      match (if isdigit (deref p) then NumParse p else .ok (1, p)) with
      | .error f => .error f
      | .ok (rangeBegin, p1) =>
        match (if deref p1 = 45 then
                 (if isdigit (deref p1.tail) then NumParse p1.tail
                  else .ok (SELENDLINE, p1.tail))
               else .ok (rangeBegin, p1)) with
        | .error f => .error f
        | .ok (rangeEnd, p2) =>
          if deref p1 = 45 ∧ deref p2 = 45 then .error .MalformedRange
          else
            match SelectorAppend st rangeBegin rangeEnd with
            | .error f => .error f
            | .ok st1 =>
              if deref p2 = 44 then ListParseLoop fuel p2.tail st1
              else .ok st1

def ListParseOpt (arg : List Nat) : Except Failure SelState :=
  ListParseLoop (arg.length + 1) arg SelectorInit

/-! ## Line projection -/

/-- The clipping of a selector against `linelen`, common to the BYTE and CHAR
scans: `none` is the `continue` of an interval wholly beyond the end of the
line, otherwise the clipped `(rangeBegin, rangeEnd)`. -/
def clipRange (linelen : Int) (s : Selector) : Option (Int × Int) :=
  let rangeBegin := if s.begin > linelen then linelen + 1 else s.begin
  if s.end_ > linelen then
    if rangeBegin = linelen + 1 then none else some (rangeBegin, linelen + 1)
  else some (rangeBegin, s.end_)

/-- The BYTE scan, from selector `i` on, with `field` entries stored so far:
the entries it stores. -/
def scanByte (line : List Nat) : Nat → List Selector → Except Failure (List (List Nat))
  | _, [] => .ok []
  | field, s :: rest =>
    match clipRange line.length s with
    | none => scanByte line field rest
    | some (rangeBegin, rangeEnd) =>
      if field + 1 ≥ MAXFIELDS then .error .TooManyFields
      else if rangeBegin - 1 < 0 then .error .InvalidAccess
      else
        let pos := line.drop (rangeBegin - 1).toNat
        let len := rangeEnd - rangeBegin + 1
        let fieldsz := strlen pos
        -- `len > fieldsz` compares as `size_t`: a negative `len` is huge
        let len := if len < 0 ∨ len > fieldsz then (fieldsz : Int) else len
        match scanByte line (field + 1) rest with
        | .error f => .error f
        | .ok tbl => .ok (pos.take len.toNat :: tbl)

/-- The second loop of `NextChar`: `while (len) { if (*q == 0) break; ++q; --len; }`. -/
def NextCharSkip : Nat → List Nat → List Nat
  | 0, q => q
  | len + 1, q => if deref q = 0 then q else NextCharSkip len q.tail

def NextChar (p : List Nat) : List Nat :=
  let len :=
    if deref p < 0x80 then 1
    else if deref p < 0x88 then 2
    else if deref p < 0x90 then 3
    else if deref p < 0x98 then 4
    else 1
  NextCharSkip len p

/-- The loop `while (range && *pos2 != 0) { pos2 = NextChar(pos2); --range; }`.
Each iteration moves `pos2` forward, so fuel `length pos2` is enough. -/
def charAdvance : Nat → Int → List Nat → List Nat
  | 0, _, pos2 => pos2
  | fuel + 1, range, pos2 =>
    if range ≠ 0 ∧ deref pos2 ≠ 0 then charAdvance fuel (range - 1) (NextChar pos2)
    else pos2

/-- The CHAR scan: `linelen` is the byte length of the line, `pos` the cursor
that every stored entry starts from. -/
def scanChar (linelen : Int) : Nat → List Nat → List Selector → Except Failure (List (List Nat))
  | _, _, [] => .ok []
  | field, pos, s :: rest =>
    match clipRange linelen s with
    | none => scanChar linelen field pos rest
    | some (rangeBegin, rangeEnd) =>
      if field + 1 ≥ MAXFIELDS then .error .TooManyFields
      else
        let pos2 := charAdvance pos.length (rangeEnd - rangeBegin + 1) pos
        match scanChar linelen (field + 1) pos2 rest with
        | .error f => .error f
        | .ok tbl => .ok (pos.take (pos.length - pos2.length) :: tbl)

/-- The FIELD scan, `for (field=0; field<MAXFIELDS; )`, with `fuel` the
iterations the loop condition still allows. -/
def scanField (optw : Bool) (delim : List Nat) (selmax : Int) :
    Nat → Nat → List Nat → Except Failure (List (List Nat))
  | 0, _, _ => .ok []
  | fuel + 1, field, pos =>
    if field + 1 ≥ MAXFIELDS then .error .TooManyFields
    else
      let pos1 := if optw then pos.drop (strspn pos delim) else pos
      let fieldsz := strcspn pos1 delim
      let done := decide (deref (pos1.drop fieldsz) = 0)
      if done then .ok [pos1.take fieldsz]
      else if ((field + 1 : Nat) : Int) ≥ selmax then .ok [pos1.take fieldsz]
      else
        match scanField optw delim selmax fuel (field + 1) (pos1.drop (fieldsz + 1)) with
        | .error f => .error f
        | .ok tbl => .ok (pos1.take fieldsz :: tbl)

/-- Output of BYTE and CHAR mode: entries `1 .. FieldQty`, empty ones skipped. -/
def writeSlices : List (List Nat) → List Nat
  | [] => []
  | f :: tbl => if f.length = 0 then writeSlices tbl else f ++ writeSlices tbl

/-- Entry `j` of the table, `j >= 0`: entry `0` is the empty slice. -/
def tableGet (tbl : List (List Nat)) (j : Int) : List Nat :=
  if j = 0 then [] else tbl.getD (j.toNat - 1) []

/-- The loop `for (j=rangeBegin; j<=rangeEnd; ++j)` of the FIELD output, from
`j` on: the new `outField` and the bytes written.  It leaves at
`j > FieldQty`, so fuel `FieldQty - rangeBegin + 1` is never short.  The
separator is written by `bytes = putc (odelim, stdout)`, which returns the
byte written: for the NUL delimiter `bytes < 1` holds and the code exits. -/
def writeRange (tbl : List (List Nat)) (odelim : Nat) (rangeEnd : Int) :
    Nat → Int → Nat → Except Failure (Nat × List Nat)
  | 0, _, outField => .ok (outField, [])
  | fuel + 1, j, outField =>
    if j ≤ rangeEnd then
      if j > (tbl.length : Int) then .ok (outField, [])
      else if outField + 1 > 1 ∧ odelim = 0 then .error .OutputWriteFailed
      else if j < 0 then .error .InvalidAccess
      else
        let sep := if outField + 1 > 1 then [odelim] else []
        let fld := if (tableGet tbl j).length = 0 then [] else tableGet tbl j
        match writeRange tbl odelim rangeEnd fuel (j + 1) (outField + 1) with
        | .error f => .error f
        | .ok (n, out) => .ok (n, sep ++ fld ++ out)
    else .ok (outField, [])

/-- The loop `for (i=0; i<SelectorQty(); ++i)` of the FIELD output. -/
def writeFields (tbl : List (List Nat)) (odelim : Nat) :
    List Selector → Nat → Except Failure (List Nat)
  | [], _ => .ok []
  | s :: rest, outField =>
    match writeRange tbl odelim s.end_ ((tbl.length : Int) - s.begin + 1).toNat
            s.begin outField with
    | .error f => .error f
    | .ok (n, out) =>
      match writeFields tbl odelim rest n with
      | .error f => .error f
      | .ok out2 => .ok (out ++ out2)

/-- One iteration of the `while (! feof (fin))` loop of `ProcessFile`, after
`getline` and the removal of the newline: the bytes written to stdout for the
line `line`.  A line skipped by `-s` writes nothing. -/
def ProcessLine (mode : Mode) (opts optw : Bool) (delim : List Nat) (odelim : Nat)
    (st : SelState) (line : List Nat) : Except Failure (List Nat) :=
  match mode with
  | .BYTE =>
    match scanByte line 0 st.selectors with
    | .error f => .error f
    | .ok tbl => .ok (writeSlices tbl ++ [10])
  | .CHAR =>
    match scanChar line.length 0 line st.selectors with
    | .error f => .error f
    | .ok tbl => .ok (writeSlices tbl ++ [10])
  | .FIELD =>
    match scanField optw delim (SelectorGetMax st) MAXFIELDS 0 line with
    | .error f => .error f
    | .ok tbl =>
      if opts ∧ tbl.length = 1 then .ok []
      else
        match writeFields tbl odelim st.selectors 0 with
        | .error f => .error f
        | .ok out => .ok (out ++ [10])
  | .NONE => .error .InternalError

/-- The line as `ProcessFile` keeps it: a final newline removed. -/
def stripNewline (raw : List Nat) : List Nat :=
  if raw.getLast? = some 10 then raw.dropLast else raw

/-- The whole of `ProcessFile` over the lines `getline` returns, in order. -/
def ProcessFile (mode : Mode) (opts optw : Bool) (delim : List Nat) (odelim : Nat)
    (st : SelState) : List (List Nat) → Except Failure (List Nat)
  | [] => .ok []
  | raw :: more =>
    match ProcessLine mode opts optw delim odelim st (stripNewline raw) with
    | .error f => .error f
    | .ok out =>
      match ProcessFile mode opts optw delim odelim st more with
      | .error f => .error f
      | .ok out2 => .ok (out ++ out2)

instance instDecidableEqExcept {ε α : Type} [DecidableEq ε] [DecidableEq α] :
    DecidableEq (Except ε α)
  | .error a, .error b =>
    if h : a = b then isTrue (by rw [h]) else isFalse (fun h2 => h (Except.error.inj h2))
  | .ok a, .ok b =>
    if h : a = b then isTrue (by rw [h]) else isFalse (fun h2 => h (Except.ok.inj h2))
  | .error _, .ok _ => isFalse (fun h => nomatch h)
  | .ok _, .error _ => isFalse (fun h => nomatch h)

/-- The bytes of an ASCII string. -/
def bytes (s : String) : List Nat := s.toList.map Char.toNat

/-! ## Option processing in `main`: the delimiters -/

/-- The options of `main` that set the delimiters: `-d <delim>` and
`-D <delim>`, each with the first byte of its argument (NUL for an empty
argument), and `-w`. -/
inductive DelimOpt where
  | d (c : Nat)
  | D (c : Nat)
  | w
  deriving DecidableEq, Repr

/-- The locals `delim`, `odelim`, `optd`, `optw` of `main`. -/
structure DelimState where
  delim : List Nat
  odelim : Nat
  optd : Bool
  optw : Bool
  deriving DecidableEq, Repr

/-- The initial values: `delim = "\t"`, `odelim = ' '`. -/
def mainInit : DelimState := { delim := [9], odelim := 32, optd := false, optw := false }

/-- One case of the `switch (opt)` of `main`; `none` is the exit through
`usage()`. -/
def mainOption (s : DelimState) : DelimOpt → Option DelimState
  | .d c =>
    if s.optw then none
    else some { delim := if c = 0 then [] else [c], odelim := c, optd := true, optw := s.optw }
  | .D c => some { delim := s.delim, odelim := c, optd := s.optd, optw := s.optw }
  | .w =>
    if s.optd then none
    else some { delim := [9, 32], odelim := 9, optd := s.optd, optw := true }

/-- The option loop of `main` over the delimiter options, in command-line
order. -/
def mainOptions : DelimState → List DelimOpt → Option DelimState
  | s, [] => some s
  | s, o :: rest =>
    match mainOption s o with
    | none => none
    | some s1 => mainOptions s1 rest

/-! ## Specification-side notions -/

/-- A decimal numeral: a non-empty string of ASCII digits. -/
def IsNumeral (ds : List Nat) : Prop := ds ≠ [] ∧ ∀ c ∈ ds, isdigit c = true

instance instDecidableIsNumeral (ds : List Nat) : Decidable (IsNumeral ds) := by
  unfold IsNumeral; infer_instance

/-- The value of the digits `ds` read after the value `acc`. -/
def decFrom (acc : Nat) (ds : List Nat) : Nat :=
  ds.foldl (fun a c => a * 10 + (c - 48)) acc

/-- The decimal value of a numeral. -/
def decVal (ds : List Nat) : Nat := decFrom 0 ds

/-- The tokens of a selector spec: `N`, `N-M`, `-M` and the empty token. -/
inductive Token where
  | single (n : List Nat)
  | range (n m : List Nat)
  | upto (m : List Nat)
  | empty
  deriving DecidableEq, Repr

def Token.text : Token → List Nat
  | .single n => n
  | .range n m => n ++ 45 :: m
  | .upto m => 45 :: m
  | .empty => []

/-- The interval the spec assigns to a token. -/
def Token.interval : Token → Selector
  | .single n => { begin := decVal n, end_ := decVal n }
  | .range n m => { begin := decVal n, end_ := decVal m }
  | .upto m => { begin := 1, end_ := decVal m }
  | .empty => { begin := 1, end_ := 1 }

/-- The side conditions on a token: numbers at most 1024, `N <= M` in `N-M`,
`M >= 1` in `-M`. -/
def Token.Valid : Token → Prop
  | .single n => IsNumeral n ∧ decVal n ≤ 1024
  | .range n m => IsNumeral n ∧ IsNumeral m ∧ decVal n ≤ decVal m ∧ decVal m ≤ 1024
  | .upto m => IsNumeral m ∧ 1 ≤ decVal m ∧ decVal m ≤ 1024
  | .empty => True

instance instDecidableTokenValid (t : Token) : Decidable t.Valid := by
  cases t <;> unfold Token.Valid <;> infer_instance

/-- The comma-separated spec made of the tokens `ts`. -/
def specOf (ts : List Token) : List Nat := List.intercalate [44] (ts.map Token.text)

/-- What `ListParseOpt` does after `SelectorAppend` in an iteration whose
token ended at `rest`. -/
def afterAppend (fuel : Nat) (rest : List Nat) (r : Except Failure SelState) :
    Except Failure SelState :=
  match r with
  | .error f => .error f
  | .ok st1 => if deref rest = 44 then ListParseLoop fuel rest.tail st1 else .ok st1

/-- A token ends at `rest` when `rest` is the end of the spec or starts with a
comma. -/
def TokenEnd (rest : List Nat) : Prop := deref rest = 0 ∨ deref rest = 44

/-- The bytes at the 1-based positions `b .. min(e, L)` of a line of `L`
bytes, for an interval `[b,e]` with `b >= 1`; nothing when `b > L`. -/
def byteSlice (line : List Nat) (s : Selector) : List Nat :=
  if s.begin ≤ line.length then
    (line.drop (s.begin.toNat - 1)).take (min s.end_ line.length - s.begin + 1).toNat
  else []

/-- No stored end exceeds `selmax`. -/
def EndsBelowMax (st : SelState) : Prop := ∀ s ∈ st.selectors, s.end_ ≤ st.selmax

/-- The indices `b, b+1, ..., e`, ascending; none when `e < b`. -/
def indexRange (b e : Int) : List Int :=
  (List.range (e - b + 1).toNat).map (fun (k : Nat) => b + (k : Int))

/-- The field indices a selector list requests on a line of `n` fields: over
the stored intervals `[b,e]` in list order, the indices `b .. min(e, n)`. -/
def requested (sels : List Selector) (n : Nat) : List Int :=
  (sels.map (fun s => indexRange s.begin (min s.end_ (n : Int)))).flatten

/-- Field `j` of the fields `fs = [f_1, ..., f_n]`, with `f_0` empty. -/
def fieldAt (fs : List (List Nat)) (j : Int) : List Nat :=
  if j = 0 then [] else fs.getD (j.toNat - 1) []

/-- The bytes the FIELD output writes for the fields `fs` when `k` fields
have been written before: a delimiter before every field but the first of
the line. -/
def joinFrom (o : Nat) : Nat → List (List Nat) → List Nat
  | _, [] => []
  | k, f :: fs => (if k + 1 > 1 then [o] else []) ++ f ++ joinFrom o (k + 1) fs

/-- The classified length of a character by its lead byte `b`. -/
def charLen (b : Nat) : Nat :=
  if b < 0x80 then 1
  else if b < 0x88 then 2
  else if b < 0x90 then 3
  else if b < 0x98 then 4
  else 1

/-- The output delimiter the usage text promises for a list of delimiter
options: the `-D` character if `-D` was given, otherwise tab if `-w` was
given, otherwise the `-d` character, or tab when `-d` is absent. -/
def documentedOdelim (opts : List DelimOpt) : Nat :=
  match opts.reverse.findSome? (fun o => match o with | .D c => some c | _ => none) with
  | some c => c
  | none =>
    if opts.contains .w then 9
    else
      match opts.reverse.findSome? (fun o => match o with | .d c => some c | _ => none) with
      | some c => c
      | none => 9

/-- The largest end among the stored intervals, 0 when there is none. -/
def maxEnd (sels : List Selector) : Int := sels.foldl (fun m s => max m s.end_) 0

/-- A sequence of `SelectorAppend (begin, end)` calls, all of them returning. -/
def appendAll : SelState → List (Int × Int) → Except Failure SelState
  | st, [] => .ok st
  | st, c :: rest =>
    match SelectorAppend st c.1 c.2 with
    | .error f => .error f
    | .ok st1 => appendAll st1 rest

/-- The selector-list invariant: every stored interval has
`0 <= begin <= end <= selmax`, `selmax` is the largest stored end (0 when
nothing is stored), `selmax <= 1024` and `selcnt <= 512`. -/
def SelectorInvariant (st : SelState) : Prop :=
  (∀ s ∈ st.selectors, 0 ≤ s.begin ∧ s.begin ≤ s.end_ ∧ s.end_ ≤ st.selmax) ∧
  (st.selectors = [] → st.selmax = 0) ∧
  (st.selectors ≠ [] → ∃ s ∈ st.selectors, s.end_ = st.selmax) ∧
  st.selmax ≤ 1024 ∧ selcnt st ≤ SELMAX

/-- The part of the invariant that holds whatever the sign of the arguments. -/
def SelectorShape (st : SelState) : Prop :=
  (∀ s ∈ st.selectors, s.begin ≤ s.end_) ∧ st.selmax = maxEnd st.selectors ∧
  st.selmax ≤ 1024 ∧ selcnt st ≤ SELMAX

/-- A token of the form `N` or `N-M`, in either order, all numbers at most
1024. -/
def Token.Plain : Token → Prop
  | .single n => IsNumeral n ∧ decVal n ≤ 1024
  | .range n m => IsNumeral n ∧ IsNumeral m ∧ decVal n ≤ 1024 ∧ decVal m ≤ 1024
  | .upto _ => False
  | .empty => False

instance instDecidableTokenPlain (t : Token) : Decidable t.Plain := by
  cases t <;> unfold Token.Plain <;> infer_instance

/-- The number of intervals a token stands for after expansion: 1 for `N`
and for `N-M` with `N <= M`, `N - M + 1` for `N-M` with `N > M`. -/
def Token.count : Token → Nat
  | .range n m => if decVal n ≤ decVal m then 1 else decVal n - decVal m + 1
  | _ => 1

/-- The intervals a token stands for after expansion. -/
def Token.expansion : Token → List Selector
  | .range n m =>
    if decVal n ≤ decVal m then [{ begin := decVal n, end_ := decVal m }]
    else (List.range (decVal n - decVal m + 1)).map
      (fun (k : Nat) =>
        ({ begin := (decVal n : Int) - (k : Int), end_ := (decVal n : Int) - (k : Int) }
          : Selector))
  | t => [t.interval]

/-- A token has a `-` directly after its range part: it reads digits, `-`,
digits, `-` (either run of digits may be empty). -/
def strayDash (tok : List Nat) : Bool :=
  match tok.dropWhile isdigit with
  | 45 :: r => deref (r.dropWhile isdigit) == 45
  | _ => false

/-- The FIELD scan without the early stop: a scanner that scans every field
of the line (the loop of `scanField` less its test `field >= selmax`). -/
def scanFieldAll (optw : Bool) (delim : List Nat) :
    Nat → Nat → List Nat → Except Failure (List (List Nat))
  | 0, _, _ => .ok []
  | fuel + 1, field, pos =>
    if field + 1 ≥ MAXFIELDS then .error .TooManyFields
    else
      let pos1 := if optw then pos.drop (strspn pos delim) else pos
      let fieldsz := strcspn pos1 delim
      let done := decide (deref (pos1.drop fieldsz) = 0)
      if done then .ok [pos1.take fieldsz]
      else
        match scanFieldAll optw delim fuel (field + 1) (pos1.drop (fieldsz + 1)) with
        | .error f => .error f
        | .ok tbl => .ok (pos1.take fieldsz :: tbl)

/-- The FIELD output of a line, suppression inactive, from the table of the
scanner that scans every field. -/
def ProcessLineAllFields (optw : Bool) (delim : List Nat) (odelim : Nat)
    (st : SelState) (line : List Nat) : Except Failure (List Nat) :=
  match scanFieldAll optw delim MAXFIELDS 0 line with
  | .error f => .error f
  | .ok tbl =>
    match writeFields tbl odelim st.selectors 0 with
    | .error f => .error f
    | .ok out => .ok (out ++ [10])

/-- A space or a tab. -/
def isBlank (c : Nat) : Bool := c == 32 || c == 9

/-- The words of a line: its maximal runs of characters that are neither
space nor tab, in order. -/
def words (line : List Nat) : List (List Nat) :=
  (line.splitOnP isBlank).filter (fun w => !w.isEmpty)

/-- The line is not empty and its last character is not a blank. -/
def EndsInWord (line : List Nat) : Prop := ∃ c, line.getLast? = some c ∧ isBlank c = false

/-! ## Parsing: numerals -/

theorem decFrom_ge (ds : List Nat) (acc : Nat) : acc ≤ decFrom acc ds := by
  induction ds generalizing acc with
  | nil => simp [decFrom]
  | cons c cs ih =>
    have h := ih (acc * 10 + (c - 48))
    simp only [decFrom, List.foldl_cons] at h ⊢
    omega

theorem wrap32_small (x : Int) (h0 : 0 ≤ x) (h1 : x < 2147483648) : wrap32 x = x := by
  unfold wrap32; omega

theorem isdigit_iff (c : Nat) : isdigit c = true ↔ 48 ≤ c ∧ c ≤ 57 := by
  simp [isdigit]

theorem NumParseLoop_digits (ds rest : List Nat) (acc : Nat)
    (hd : ∀ c ∈ ds, isdigit c = true) (hr : isdigit (deref rest) = false)
    (hv : decFrom acc ds ≤ 1024) :
    NumParseLoop (ds ++ rest) (acc : Int) = (((decFrom acc ds : Nat) : Int), rest) := by
  induction ds generalizing acc with
  | nil =>
    cases rest with
    | nil => simp [NumParseLoop, decFrom]
    | cons c q =>
      have : isdigit c = false := by simpa [deref] using hr
      simp [NumParseLoop, decFrom, this]
  | cons c cs ih =>
    have hc : isdigit c = true := hd c (by simp)
    have hc2 := (isdigit_iff c).1 hc
    have hge := decFrom_ge cs (acc * 10 + (c - 48))
    have hv2 : decFrom (acc * 10 + (c - 48)) cs ≤ 1024 := by
      simpa [decFrom] using hv
    have hw : wrap32 (wrap32 ((acc : Int) * 10) + ((c : Int) - 48))
        = ((acc * 10 + (c - 48) : Nat) : Int) := by
      rw [wrap32_small ((acc : Int) * 10) (by omega) (by omega)]
      rw [wrap32_small _ (by omega) (by omega)]
      omega
    have h3 := ih (acc * 10 + (c - 48)) (fun x hx => hd x (by simp [hx])) hv2
    simp only [List.cons_append, NumParseLoop, hc, if_true]
    rw [hw]
    exact h3

theorem NumParse_numeral (ds rest : List Nat)
    (hd : ∀ c ∈ ds, isdigit c = true) (hr : isdigit (deref rest) = false)
    (hv : decVal ds ≤ 1024) :
    NumParse (ds ++ rest) = .ok (((decVal ds : Nat) : Int), rest) := by
  have h := NumParseLoop_digits ds rest 0 hd hr hv
  simp only [Nat.cast_zero] at h
  unfold NumParse
  simp only [h, MAXLINESZ, decVal]
  have : ¬ ((decFrom 0 ds : Nat) : Int) > 1024 := by
    unfold decVal at hv; omega
  simp [this]

/-! ## Selector list lemmas -/

theorem SelectorStore_ok (st : SelState) (b e : Int) (h : selcnt st < SELMAX) :
    SelectorStore st b e =
      .ok { selectors := st.selectors ++ [{ begin := b, end_ := e }],
            selmax := if e > st.selmax then e else st.selmax } := by
  unfold SelectorStore
  rw [if_neg (by omega)]

theorem SelectorAppend_ascending (st : SelState) (b e : Int) (h : selcnt st < SELMAX)
    (hbe : b ≤ e) :
    SelectorAppend st b e =
      .ok { selectors := st.selectors ++ [{ begin := b, end_ := e }],
            selmax := if e > st.selmax then e else st.selmax } := by
  unfold SelectorAppend
  rw [if_neg (by omega), if_pos hbe, SelectorStore_ok st b e h]

/-- The single-point intervals `[i,i], [i-1,i-1], ...`, `n` of them. -/
theorem SelectorDescend_ok (n : Nat) (i : Int) (st : SelState)
    (h : selcnt st + n ≤ SELMAX) :
    ∃ st1, SelectorDescend n i st = .ok st1 ∧
      st1.selectors = st.selectors ++
        (List.range n).map (fun (k : Nat) => ({ begin := i - (k : Int), end_ := i - (k : Int) } : Selector)) := by
  induction n generalizing i st with
  | zero => exact ⟨st, rfl, by simp⟩
  | succ n ih =>
    have h1 : selcnt st < SELMAX := by omega
    simp only [SelectorDescend, SelectorStore_ok st i i h1]
    obtain ⟨st1, h2, h3⟩ := ih (i - 1)
      { selectors := st.selectors ++ [{ begin := i, end_ := i }],
        selmax := if i > st.selmax then i else st.selmax }
      (by simp only [selcnt, List.length_append, List.length_singleton] at *; omega)
    refine ⟨st1, h2, ?_⟩
    rw [h3, List.range_succ_eq_map]
    simp only [List.append_assoc, List.singleton_append, List.map_cons, List.map_map,
      Nat.cast_zero, sub_zero]
    congr 2
    apply List.map_congr_left
    intro k _
    simp only [Function.comp, Nat.cast_succ]
    congr 1 <;> ring

theorem SelectorAppend_descending (st : SelState) (b e : Int) (hbe : e < b)
    (h : (selcnt st : Int) + (b - e + 1) ≤ SELMAX) :
    ∃ st1, SelectorAppend st b e = .ok st1 ∧
      st1.selectors = st.selectors ++
        (List.range (b - e + 1).toNat).map
          (fun (k : Nat) => ({ begin := b - (k : Int), end_ := b - (k : Int) } : Selector)) := by
  unfold SelectorAppend
  rw [if_neg (by omega), if_neg (by omega)]
  exact SelectorDescend_ok _ b st (by omega)

/-! ## Parsing: one iteration of `ListParseOpt` per token form -/

theorem isdigit_deref_numeral (n rest : List Nat) (hn : IsNumeral n) :
    isdigit (deref (n ++ rest)) = true := by
  obtain ⟨hne, hd⟩ := hn
  cases n with
  | nil => exact absurd rfl hne
  | cons c cs => simpa [deref] using hd c (by simp)

theorem isdigit_false_of_eq (c v : Nat) (h : c = v) (hv : isdigit v = false) :
    isdigit c = false := by rw [h]; exact hv

theorem TokenEnd.not_digit {rest : List Nat} (h : TokenEnd rest) :
    isdigit (deref rest) = false := by
  rcases h with h | h <;> rw [h] <;> decide

theorem TokenEnd.not_dash {rest : List Nat} (h : TokenEnd rest) : deref rest ≠ 45 := by
  rcases h with h | h <;> rw [h] <;> decide

theorem step_single (fuel : Nat) (n rest : List Nat) (st : SelState)
    (hn : IsNumeral n) (hv : decVal n ≤ 1024) (hr : TokenEnd rest) :
    ListParseLoop (fuel + 1) (n ++ rest) st =
      afterAppend fuel rest (SelectorAppend st (decVal n) (decVal n)) := by
  have h1 := isdigit_deref_numeral n rest hn
  have h0 : deref (n ++ rest) ≠ 0 := by
    intro h; rw [h] at h1; exact absurd h1 (by decide)
  have h2 := NumParse_numeral n rest hn.2 hr.not_digit hv
  have h3 := hr.not_dash
  simp only [ListParseLoop, h0, h1, h2, h3, if_true, if_false, false_and, afterAppend]

theorem step_range (fuel : Nat) (n m rest : List Nat) (st : SelState)
    (hn : IsNumeral n) (hv : decVal n ≤ 1024) (hm : IsNumeral m) (hw : decVal m ≤ 1024)
    (hr : TokenEnd rest) :
    ListParseLoop (fuel + 1) (n ++ 45 :: (m ++ rest)) st =
      afterAppend fuel rest (SelectorAppend st (decVal n) (decVal m)) := by
  have h1 := isdigit_deref_numeral n (45 :: (m ++ rest)) hn
  have h0 : deref (n ++ 45 :: (m ++ rest)) ≠ 0 := by
    intro h; rw [h] at h1; exact absurd h1 (by decide)
  have h2 := NumParse_numeral n (45 :: (m ++ rest)) hn.2 rfl hv
  have h4 := isdigit_deref_numeral m rest hm
  have h5 := NumParse_numeral m rest hm.2 hr.not_digit hw
  have h3 := hr.not_dash
  have h6 : deref (45 :: (m ++ rest)) = 45 := rfl
  simp only [ListParseLoop, h0, h1, h2, h3, h4, h5, h6, List.tail_cons, if_true, if_false,
    and_false, afterAppend]

theorem step_open (fuel : Nat) (n rest : List Nat) (st : SelState)
    (hn : IsNumeral n) (hv : decVal n ≤ 1024) (hr : TokenEnd rest) :
    ListParseLoop (fuel + 1) (n ++ 45 :: rest) st =
      afterAppend fuel rest (SelectorAppend st (decVal n) SELENDLINE) := by
  have h1 := isdigit_deref_numeral n (45 :: rest) hn
  have h0 : deref (n ++ 45 :: rest) ≠ 0 := by
    intro h; rw [h] at h1; exact absurd h1 (by decide)
  have h2 := NumParse_numeral n (45 :: rest) hn.2 rfl hv
  have h4 := hr.not_digit
  have h3 := hr.not_dash
  have h6 : deref (45 :: rest) = 45 := rfl
  simp only [ListParseLoop, h0, h1, h2, h3, h4, h6, List.tail_cons, if_true, if_false,
    and_false, afterAppend, Bool.false_eq_true]

theorem step_upto (fuel : Nat) (m rest : List Nat) (st : SelState)
    (hm : IsNumeral m) (hw : decVal m ≤ 1024) (hr : TokenEnd rest) :
    ListParseLoop (fuel + 1) (45 :: (m ++ rest)) st =
      afterAppend fuel rest (SelectorAppend st 1 (decVal m)) := by
  have h4 := isdigit_deref_numeral m rest hm
  have h5 := NumParse_numeral m rest hm.2 hr.not_digit hw
  have h3 := hr.not_dash
  have h6 : deref (45 :: (m ++ rest)) = 45 := rfl
  have h7 : isdigit 45 = false := by decide
  simp only [ListParseLoop, h3, h4, h5, h6, h7, List.tail_cons, if_true, if_false,
    and_false, afterAppend, Bool.false_eq_true]
  simp

theorem step_dash (fuel : Nat) (rest : List Nat) (st : SelState) (hr : TokenEnd rest) :
    ListParseLoop (fuel + 1) (45 :: rest) st =
      afterAppend fuel rest (SelectorAppend st 1 SELENDLINE) := by
  have h4 := hr.not_digit
  have h3 := hr.not_dash
  have h6 : deref (45 :: rest) = 45 := rfl
  have h7 : isdigit 45 = false := by decide
  simp only [ListParseLoop, h3, h4, h6, h7, List.tail_cons, if_true, if_false,
    and_false, afterAppend, Bool.false_eq_true]
  simp

theorem step_empty (fuel : Nat) (rest : List Nat) (st : SelState) :
    ListParseLoop (fuel + 1) (44 :: rest) st =
      afterAppend fuel (44 :: rest) (SelectorAppend st 1 1) := by
  have h6 : deref (44 :: rest) = 44 := rfl
  have h7 : isdigit 44 = false := by decide
  simp only [ListParseLoop, h6, h7, if_false, afterAppend, Bool.false_eq_true]
  rfl

/-- The state after storing the interval `s`. -/
theorem step_token (fuel : Nat) (t : Token) (rest : List Nat) (st : SelState)
    (hv : t.Valid) (hr : TokenEnd rest) (he : t = .empty → deref rest = 44)
    (hc : selcnt st < SELMAX) :
    ListParseLoop (fuel + 1) (t.text ++ rest) st =
      afterAppend fuel rest
        (.ok { selectors := st.selectors ++ [t.interval],
               selmax := if t.interval.end_ > st.selmax then t.interval.end_
                         else st.selmax }) := by
  cases t with
  | single n =>
    obtain ⟨hn, hv⟩ := hv
    rw [Token.text, step_single fuel n rest st hn hv hr,
      SelectorAppend_ascending st _ _ hc (le_refl _)]
    rfl
  | range n m =>
    obtain ⟨hn, hm, hnm, hw⟩ := hv
    rw [Token.text, List.append_assoc, List.cons_append,
      step_range fuel n m rest st hn (by omega) hm hw hr,
      SelectorAppend_ascending st _ _ hc (by exact_mod_cast hnm)]
    rfl
  | upto m =>
    obtain ⟨hm, h1, hw⟩ := hv
    rw [Token.text, List.cons_append, step_upto fuel m rest st hm hw hr,
      SelectorAppend_ascending st _ _ hc (by exact_mod_cast h1)]
    rfl
  | empty =>
    have h44 := he rfl
    cases rest with
    | nil => exact absurd h44 (by decide)
    | cons c r =>
      have hc44 : c = 44 := h44
      subst hc44
      rw [Token.text, List.nil_append, step_empty fuel r st,
        SelectorAppend_ascending st _ _ hc (le_refl _)]
      rfl

theorem specOf_cons_cons (t t2 : Token) (ts : List Token) :
    specOf (t :: t2 :: ts) = t.text ++ 44 :: specOf (t2 :: ts) := by
  simp [specOf, List.intercalate, List.intersperse]

theorem specOf_singleton (t : Token) : specOf [t] = t.text := by
  simp [specOf, List.intercalate, List.intersperse]

theorem ListParseLoop_tokens (ts : List Token) :
    ∀ (fuel : Nat) (st : SelState), (∀ t ∈ ts, t.Valid) →
      ts.getLast? ≠ some .empty → selcnt st + ts.length ≤ SELMAX → ts.length ≤ fuel →
      ∃ st1, ListParseLoop fuel (specOf ts) st = .ok st1 ∧
        st1.selectors = st.selectors ++ ts.map Token.interval := by
  induction ts with
  | nil =>
    intro fuel st _ _ _ _
    refine ⟨st, ?_, by simp⟩
    have h0 : specOf [] = [] := rfl
    rw [h0]
    cases fuel <;> simp [ListParseLoop, deref]
  | cons t ts ih =>
    intro fuel st hv hl hc hf
    cases fuel with
    | zero => simp at hf
    | succ fuel =>
      have hc1 : selcnt st < SELMAX := by simp only [List.length_cons] at hc; omega
      cases ts with
      | nil =>
        have hne : t ≠ .empty := by
          intro h; apply hl; simp [h]
        have hstep := step_token fuel t [] st (hv t (by simp)) (Or.inl rfl)
          (fun h => absurd h hne) hc1
        rw [List.append_nil] at hstep
        rw [specOf_singleton, hstep]
        exact ⟨_, rfl, by simp⟩
      | cons t2 ts =>
        have hstep := step_token fuel t (44 :: specOf (t2 :: ts)) st (hv t (by simp))
          (Or.inr rfl) (fun _ => rfl) hc1
        rw [specOf_cons_cons, hstep]
        simp only [afterAppend, deref, List.headD_cons, if_true, List.tail_cons]
        obtain ⟨st1, h1, h2⟩ := ih fuel
          { selectors := st.selectors ++ [t.interval],
            selmax := if t.interval.end_ > st.selmax then t.interval.end_ else st.selmax }
          (fun x hx => hv x (by simp [hx]))
          (by simpa [List.getLast?_cons_cons] using hl)
          (by simp only [selcnt, List.length_append, List.length_cons, List.length_nil] at hc ⊢
              omega)
          (by simp only [List.length_cons] at hf ⊢; omega)
        exact ⟨st1, h1, by rw [h2]; simp⟩

theorem specOf_length (ts : List Token) : ts.length ≤ (specOf ts).length + 1 := by
  induction ts with
  | nil => simp
  | cons t ts ih =>
    cases ts with
    | nil => simp
    | cons t2 ts =>
      rw [specOf_cons_cons]
      simp only [List.length_cons, List.length_append] at ih ⊢
      omega

/-! ## Parsing: the claims -/

/-- C3: a spec made of at most 512 tokens of the forms `N`, `N-M` with
`N <= M`, `-M` with `M >= 1` and the empty token (all numbers at most 1024,
the last token not empty, so that every empty token is followed by a comma) is
parsed into exactly one interval per token, in the order of the tokens:
`[N,N]`, `[N,M]`, `[1,M]` and `[1,1]`. -/
theorem ListParseOpt_token_intervals (ts : List Token) (hv : ∀ t ∈ ts, t.Valid)
    (hl : ts.getLast? ≠ some .empty) (hn : ts.length ≤ 512) :
    ∃ st, ListParseOpt (specOf ts) = .ok st ∧ st.selectors = ts.map Token.interval := by
  obtain ⟨st, h1, h2⟩ := ListParseLoop_tokens ts ((specOf ts).length + 1) SelectorInit hv hl
    (by simp only [selcnt, SelectorInit, List.length_nil, SELMAX]; omega) (specOf_length ts)
  exact ⟨st, h1, by simpa [SelectorInit] using h2⟩

/-- C3 at the spec `1,,2`: the intervals `[1,1], [1,1], [2,2]`. -/
theorem ListParseOpt_token_intervals_witness :
    specOf [.single [49], .empty, .single [50]] = bytes "1,,2" ∧
    ∃ st, ListParseOpt (specOf [.single [49], .empty, .single [50]]) = .ok st ∧
      st.selectors = [{ begin := 1, end_ := 1 }, { begin := 1, end_ := 1 },
        { begin := 2, end_ := 2 }] :=
  ⟨by decide,
   ListParseOpt_token_intervals [.single [49], .empty, .single [50]] (by decide) (by decide)
    (by decide)⟩

/-- C4: for numerals `n`, `m` of values `N > M`, `N <= 1024`, with
`N - M + 1 <= 512`, parsing `N-M` into the empty selector list stores exactly
the `N - M + 1` intervals `[N,N], [N-1,N-1], ..., [M,M]`, in that order. -/
theorem ListParseOpt_descending (n m : List Nat) (hn : IsNumeral n) (hm : IsNumeral m)
    (hgt : decVal m < decVal n) (hN : decVal n ≤ 1024)
    (hcnt : decVal n - decVal m + 1 ≤ 512) :
    ∃ st, ListParseOpt (n ++ 45 :: m) = .ok st ∧
      st.selectors = (List.range (decVal n - decVal m + 1)).map
        (fun (k : Nat) =>
          ({ begin := (decVal n : Int) - (k : Int), end_ := (decVal n : Int) - (k : Int) }
            : Selector)) := by
  have hstep := step_range (n ++ 45 :: m).length n m [] SelectorInit hn hN hm (by omega)
    (Or.inl rfl)
  rw [List.append_nil] at hstep
  obtain ⟨st, h1, h2⟩ := SelectorAppend_descending SelectorInit (decVal n) (decVal m)
    (by exact_mod_cast hgt)
    (by simp only [selcnt, SelectorInit, List.length_nil, SELMAX]; omega)
  refine ⟨st, ?_, ?_⟩
  · unfold ListParseOpt
    rw [hstep, h1]
    rfl
  · rw [h2]
    have : ((decVal n : Int) - (decVal m : Int) + 1).toNat = decVal n - decVal m + 1 := by
      omega
    rw [this]
    simp [SelectorInit]

/-- C4 at the spec `5-1`: the intervals `[5,5], [4,4], [3,3], [2,2], [1,1]`. -/
theorem ListParseOpt_descending_witness :
    [53] ++ 45 :: [49] = bytes "5-1" ∧
    ∃ st, ListParseOpt ([53] ++ 45 :: [49]) = .ok st ∧
      st.selectors = (List.range (decVal [53] - decVal [49] + 1)).map
        (fun (k : Nat) =>
          ({ begin := (decVal [53] : Int) - (k : Int),
             end_ := (decVal [53] : Int) - (k : Int) } : Selector)) :=
  ⟨by decide,
   ListParseOpt_descending [53] [49] (by decide) (by decide) (by decide) (by decide)
    (by decide)⟩

/-- An open-ended token `N-` with `N` at most `SELENDLINE` = 511 is stored as
the single interval `[N, 511]`. -/
theorem ListParseOpt_open_small (n : List Nat) (hn : IsNumeral n) (hv : decVal n ≤ 511) :
    ListParseOpt (n ++ [45]) =
      .ok { selectors := [{ begin := decVal n, end_ := SELENDLINE }], selmax := SELENDLINE } := by
  have hstep := step_open (n ++ [45]).length n [] SelectorInit hn (by omega) (Or.inl rfl)
  have happ := SelectorAppend_ascending SelectorInit (decVal n) SELENDLINE
    (by simp [selcnt, SelectorInit, SELMAX])
    (by
      have h511 : SELENDLINE = 511 := rfl
      rw [h511]; omega)
  unfold ListParseOpt
  rw [hstep, happ]
  rfl

/-- C5, the code at `512-` and at `1024-`: the token is not stored as one
open-ended interval but expanded as a descending range down to 511, the value
of the end-of-line marker `SELENDLINE`; `512-` stores two intervals and
`1024-` exceeds the capacity. -/
theorem ListParseOpt_open_512 :
    ListParseOpt (bytes "512-") =
      .ok { selectors := [{ begin := 512, end_ := 512 }, { begin := 511, end_ := 511 }],
            selmax := 512 } ∧
    ListParseOpt (bytes "1024-") = .error .TooManySelectors := by
  constructor
  · decide
  · decide!

/-! ## BYTE mode -/

theorem writeSlices_eq_flatten (tbl : List (List Nat)) : writeSlices tbl = tbl.flatten := by
  induction tbl with
  | nil => rfl
  | cons f tbl ih =>
    simp only [writeSlices, List.flatten_cons, ih]
    split
    · rename_i h
      rw [List.length_eq_zero.1 h]; rfl
    · rfl

theorem strlen_of_no_nul (p : List Nat) (h : ∀ c ∈ p, c ≠ 0) : strlen p = p.length := by
  unfold strlen
  rw [List.takeWhile_eq_self_iff.2]
  intro c hc
  simpa using h c hc

theorem scanByte_slices (line : List Nat) (hnul : ∀ c ∈ line, c ≠ 0) (sels : List Selector) :
    ∀ field : Nat, field + sels.length < MAXFIELDS →
      (∀ s ∈ sels, 1 ≤ s.begin ∧ s.begin ≤ s.end_) →
      ∃ tbl, scanByte line field sels = .ok tbl ∧
        tbl.flatten = (sels.map (byteSlice line)).flatten := by
  induction sels with
  | nil => intro field _ _; exact ⟨[], rfl, rfl⟩
  | cons s rest ih =>
    intro field hf hs
    obtain ⟨hb1, hbe⟩ := hs s (by simp)
    have hrest : ∀ x ∈ rest, 1 ≤ x.begin ∧ x.begin ≤ x.end_ :=
      fun x hx => hs x (by simp [hx])
    simp only [List.length_cons] at hf
    by_cases hbL : s.begin > (line.length : Int)
    · -- the interval lies beyond the end of the line
      have hclip : clipRange line.length s = none := by
        unfold clipRange
        simp only [hbL, if_true]
        rw [if_pos (by omega)]
      obtain ⟨tbl, h1, h2⟩ := ih field (by omega) hrest
      refine ⟨tbl, ?_, ?_⟩
      · simp only [scanByte, hclip, h1]
      · simp only [List.map_cons, List.flatten_cons, h2, byteSlice]
        rw [if_neg (by omega)]; rfl
    · obtain ⟨tbl, h1, h2⟩ := ih (field + 1) (by omega) hrest
      have hdrop : ∀ c ∈ line.drop (s.begin - 1).toNat, c ≠ 0 :=
        fun c hc => hnul c (List.mem_of_mem_drop hc)
      have hidx : (s.begin - 1).toNat = s.begin.toNat - 1 := by omega
      rw [hidx] at hdrop
      have hlen : strlen (line.drop (s.begin.toNat - 1)) = line.length - (s.begin.toNat - 1) := by
        rw [strlen_of_no_nul _ hdrop, List.length_drop]
      by_cases heL : s.end_ > (line.length : Int)
      · have hclip : clipRange line.length s = some (s.begin, (line.length : Int) + 1) := by
          unfold clipRange
          simp only [hbL, if_false, heL, if_true]
          rw [if_neg (by omega)]
        refine ⟨byteSlice line s :: tbl, ?_, ?_⟩
        · simp only [scanByte, hclip, h1]
          rw [if_neg (by omega), if_neg (by omega)]
          have hA : (line.length : Int) + 1 - s.begin + 1 < 0 ∨ (line.length : Int) + 1 - s.begin + 1
              > ((line.length - (s.begin.toNat - 1) : Nat) : Int) := by omega
          have hB : s.begin ≤ (line.length : Int) := by omega
          have hmin : min s.end_ (line.length : Int) = line.length := by omega
          simp only [byteSlice, hidx, hlen, hA, hB, if_true, hmin]
          congr 3
          omega
        · simp only [List.map_cons, List.flatten_cons, h2]
      · have hclip : clipRange line.length s = some (s.begin, s.end_) := by
          unfold clipRange
          simp only [hbL, if_false, heL]
        refine ⟨byteSlice line s :: tbl, ?_, ?_⟩
        · simp only [scanByte, hclip, h1]
          rw [if_neg (by omega), if_neg (by omega)]
          have hA : ¬ (s.end_ - s.begin + 1 < 0 ∨ s.end_ - s.begin + 1
              > ((line.length - (s.begin.toNat - 1) : Nat) : Int)) := by omega
          have hB : s.begin ≤ (line.length : Int) := by omega
          have hmin : min s.end_ (line.length : Int) = s.end_ := by omega
          simp only [byteSlice, hidx, hlen, hA, hB, if_true, if_false, hmin]
        · simp only [List.map_cons, List.flatten_cons, h2]

/-- C2: in BYTE mode, for a selector list (at most `SELMAX` intervals) whose
intervals all satisfy `1 <= begin <= end` and a line without NUL byte, the
output is the concatenation, in list order, of the bytes at positions
`b .. min(e, L)` of each interval with `b <= L`, without separators, followed
by one newline. -/
theorem ProcessLine_byte_slices (opts optw : Bool) (delim : List Nat) (odelim : Nat)
    (st : SelState) (line : List Nat)
    (hsel : ∀ s ∈ st.selectors, 1 ≤ s.begin ∧ s.begin ≤ s.end_)
    (hnul : ∀ c ∈ line, c ≠ 0) (hcap : selcnt st ≤ SELMAX) :
    ProcessLine .BYTE opts optw delim odelim st line =
      .ok ((st.selectors.map (byteSlice line)).flatten ++ [10]) := by
  obtain ⟨tbl, h1, h2⟩ := scanByte_slices line hnul st.selectors 0
    (by simp only [selcnt, SELMAX, MAXFIELDS] at *; omega) hsel
  simp only [ProcessLine, h1, writeSlices_eq_flatten, h2]

/-- C2 at the spec `1,3,2` over `abc`: the output `acb` and a newline. -/
theorem ProcessLine_byte_slices_witness :
    ListParseOpt (bytes "1,3,2") =
      .ok { selectors := [{ begin := 1, end_ := 1 }, { begin := 3, end_ := 3 },
              { begin := 2, end_ := 2 }], selmax := 3 } ∧
    ProcessLine .BYTE false false [9] 9
      { selectors := [{ begin := 1, end_ := 1 }, { begin := 3, end_ := 3 },
          { begin := 2, end_ := 2 }], selmax := 3 } (bytes "abc") = .ok (bytes "acb\n") :=
  ⟨by decide,
   ProcessLine_byte_slices false false [9] 9
    { selectors := [{ begin := 1, end_ := 1 }, { begin := 3, end_ := 3 },
        { begin := 2, end_ := 2 }], selmax := 3 } (bytes "abc")
    (by decide) (by decide) (by decide)⟩

/-! ## `selmax` bounds every stored end -/

theorem SelectorStore_ends (st st1 : SelState) (b e : Int) (hi : EndsBelowMax st)
    (h : SelectorStore st b e = .ok st1) : EndsBelowMax st1 := by
  unfold SelectorStore at h
  split at h
  · exact absurd h (by simp)
  · have h2 := Except.ok.inj h
    subst h2
    intro s hs
    simp only [List.mem_append, List.mem_singleton] at hs
    rcases hs with hs | hs
    · have := hi s hs
      show s.end_ ≤ if e > st.selmax then e else st.selmax
      split <;> omega
    · subst hs
      show e ≤ if e > st.selmax then e else st.selmax
      split <;> omega

theorem SelectorDescend_ends (n : Nat) : ∀ (i : Int) (st st1 : SelState), EndsBelowMax st →
    SelectorDescend n i st = .ok st1 → EndsBelowMax st1 := by
  induction n with
  | zero =>
    intro i st st1 hi h
    have h2 := Except.ok.inj h
    subst h2; exact hi
  | succ n ih =>
    intro i st st1 hi h
    simp only [SelectorDescend] at h
    split at h
    · exact absurd h (by simp)
    · rename_i st2 h2
      exact ih (i - 1) st2 st1 (SelectorStore_ends st st2 i i hi h2) h

theorem SelectorAppend_ends (st st1 : SelState) (b e : Int) (hi : EndsBelowMax st)
    (h : SelectorAppend st b e = .ok st1) : EndsBelowMax st1 := by
  unfold SelectorAppend at h
  split at h
  · exact absurd h (by simp)
  · split at h
    · exact SelectorStore_ends st st1 b e hi h
    · exact SelectorDescend_ends _ b st st1 hi h

theorem ListParseLoop_ends (fuel : Nat) : ∀ (p : List Nat) (st st1 : SelState),
    EndsBelowMax st → ListParseLoop fuel p st = .ok st1 → EndsBelowMax st1 := by
  induction fuel with
  | zero =>
    intro p st st1 hi h
    have h2 := Except.ok.inj h
    subst h2; exact hi
  | succ fuel ih =>
    intro p st st1 hi h
    simp only [ListParseLoop] at h
    split at h
    · have h2 := Except.ok.inj h
      subst h2; exact hi
    · split at h
      · exact absurd h (by simp)
      · split at h
        · exact absurd h (by simp)
        · split at h
          · exact absurd h (by simp)
          · split at h
            · exact absurd h (by simp)
            · rename_i st2 h2
              have hi2 := SelectorAppend_ends st st2 _ _ hi h2
              split at h
              · exact ih _ st2 st1 hi2 h
              · have h3 := Except.ok.inj h
                subst h3; exact hi2

theorem ListParseOpt_ends (arg : List Nat) (st : SelState) (h : ListParseOpt arg = .ok st) :
    EndsBelowMax st :=
  ListParseLoop_ends _ arg SelectorInit st (fun s hs => by simp [SelectorInit] at hs) h

/-! ## FIELD mode: output -/

theorem intercalate_singleton (d : Nat) (f : List Nat) : List.intercalate [d] [f] = f := by
  simp [List.intercalate]

theorem intercalate_cons_cons (d : Nat) (f f2 : List Nat) (fs : List (List Nat)) :
    List.intercalate [d] (f :: f2 :: fs) = f ++ d :: List.intercalate [d] (f2 :: fs) := by
  simp [List.intercalate]

theorem joinFrom_succ (o k : Nat) (fs : List (List Nat)) :
    joinFrom o (k + 1) fs = (fs.map (fun f => o :: f)).flatten := by
  induction fs generalizing k with
  | nil => rfl
  | cons f fs ih =>
    simp only [joinFrom, List.map_cons, List.flatten_cons, ih]
    simp

theorem joinFrom_zero (o : Nat) (fs : List (List Nat)) :
    joinFrom o 0 fs = List.intercalate [o] fs := by
  induction fs with
  | nil => rfl
  | cons f fs ih =>
    cases fs with
    | nil => simp [joinFrom, intercalate_singleton]
    | cons f2 fs =>
      rw [intercalate_cons_cons, ← ih]
      simp only [joinFrom, joinFrom_succ]
      simp

theorem joinFrom_append (o : Nat) (xs ys : List (List Nat)) (k : Nat) :
    joinFrom o k (xs ++ ys) = joinFrom o k xs ++ joinFrom o (k + xs.length) ys := by
  induction xs generalizing k with
  | nil => simp [joinFrom]
  | cons x xs ih =>
    have hk : k + 1 + xs.length = k + (xs.length + 1) := by omega
    have h := ih (k + 1)
    rw [hk] at h
    simp only [List.cons_append, joinFrom, List.length_cons, List.append_assoc]
    show _ ++ (x ++ joinFrom o (k + 1) (xs ++ ys)) = _
    rw [h]

theorem indexRange_empty (b e : Int) (h : e < b) : indexRange b e = [] := by
  unfold indexRange
  have : (e - b + 1).toNat = 0 := by omega
  rw [this]; rfl

theorem indexRange_cons (b e : Int) (h : b ≤ e) :
    indexRange b e = b :: indexRange (b + 1) e := by
  unfold indexRange
  have : (e - b + 1).toNat = (e - (b + 1) + 1).toNat + 1 := by omega
  rw [this, List.range_succ_eq_map]
  simp only [List.map_cons, List.map_map, Nat.cast_zero, add_zero]
  congr 1
  apply List.map_congr_left
  intro k _
  simp only [Function.comp, Nat.cast_succ]
  ring

theorem writeRange_indices (tbl : List (List Nat)) (o : Nat) (e : Int) (fuel : Nat) :
    ∀ (j : Int) (outField : Nat), 0 ≤ j → ((tbl.length : Int) - j + 1).toNat ≤ fuel →
      (o ≠ 0 ∨ outField + (indexRange j (min e (tbl.length : Int))).length ≤ 1) →
      writeRange tbl o e fuel j outField =
        .ok (outField + (indexRange j (min e (tbl.length : Int))).length,
             joinFrom o outField ((indexRange j (min e (tbl.length : Int))).map (tableGet tbl))) := by
  induction fuel with
  | zero =>
    intro j outField _ hf _
    rw [indexRange_empty j _ (by omega)]
    rfl
  | succ fuel ih =>
    intro j outField hj hf ho
    simp only [writeRange]
    by_cases h1 : j ≤ e
    · by_cases h2 : j > (tbl.length : Int)
      · rw [indexRange_empty j _ (by omega)]
        simp [h1, h2, joinFrom]
      · have h3 : ¬ j < 0 := by omega
        rw [indexRange_cons j _ (by omega)] at ho ⊢
        simp only [List.length_cons] at ho
        have h4 : ¬ (outField + 1 > 1 ∧ o = 0) := by
          rintro ⟨h5, h6⟩
          rcases ho with ho | ho
          · exact ho h6
          · omega
        have ho2 : o ≠ 0 ∨
            outField + 1 + (indexRange (j + 1) (min e (tbl.length : Int))).length ≤ 1 := by
          rcases ho with ho | ho
          · exact Or.inl ho
          · right; omega
        simp only [h1, h2, h3, h4, if_true, if_false,
          ih (j + 1) (outField + 1) (by omega) (by omega) ho2,
          List.length_cons, List.map_cons, joinFrom]
        congr 2
        · omega
        · congr 2
          split
          · rename_i h; rw [List.length_eq_zero.1 h]
          · rfl
    · rw [indexRange_empty j _ (by omega)]
      simp [h1, joinFrom]

theorem requested_cons (s : Selector) (rest : List Selector) (n : Nat) :
    requested (s :: rest) n = indexRange s.begin (min s.end_ (n : Int)) ++ requested rest n := by
  simp [requested]

theorem writeFields_indices (tbl : List (List Nat)) (o : Nat) (sels : List Selector) :
    ∀ outField : Nat, (∀ s ∈ sels, 0 ≤ s.begin) →
      (o ≠ 0 ∨ outField + (requested sels tbl.length).length ≤ 1) →
      writeFields tbl o sels outField =
        .ok (joinFrom o outField ((requested sels tbl.length).map (tableGet tbl))) := by
  induction sels with
  | nil => intro _ _ _; rfl
  | cons s rest ih =>
    intro outField hb ho
    rw [requested_cons, List.length_append] at ho
    have ho1 : o ≠ 0 ∨
        outField + (indexRange s.begin (min s.end_ (tbl.length : Int))).length ≤ 1 := by
      rcases ho with ho | ho
      · exact Or.inl ho
      · right; omega
    have ho2 : o ≠ 0 ∨
        outField + (indexRange s.begin (min s.end_ (tbl.length : Int))).length
          + (requested rest tbl.length).length ≤ 1 := by
      rcases ho with ho | ho
      · exact Or.inl ho
      · right; omega
    have h1 := writeRange_indices tbl o s.end_ _ s.begin outField (hb s (by simp)) (le_refl _)
      ho1
    simp only [writeFields, h1, ih _ (fun x hx => hb x (by simp [hx])) ho2, requested_cons,
      List.map_append, joinFrom_append, List.length_map]

/-! ## FIELD mode: scan -/

theorem strcspn_field (f rest : List Nat) (d : Nat) (hd : ∀ c ∈ f, c ≠ d)
    (h0 : ∀ c ∈ f, c ≠ 0) (hr : rest = [] ∨ ∃ r, rest = d :: r) :
    strcspn (f ++ rest) [d] = f.length := by
  unfold strcspn
  rw [List.takeWhile_append_of_pos]
  · rcases hr with hr | ⟨r, hr⟩
    · subst hr; simp
    · subst hr
      rw [List.takeWhile_cons_of_neg]
      · simp
      · simp
  · intro c hc
    have h1 := hd c hc
    have h2 := h0 c hc
    simp [h1, h2]

theorem no_nul_fields (d : Nat) (fs : List (List Nat))
    (h : ∀ c ∈ List.intercalate [d] fs, c ≠ 0) : ∀ f ∈ fs, ∀ c ∈ f, c ≠ 0 := by
  induction fs with
  | nil => intro f hf; simp at hf
  | cons f fs ih =>
    cases fs with
    | nil =>
      intro g hg c hc
      simp only [List.mem_singleton] at hg
      subst hg
      exact h c (by rw [intercalate_singleton]; exact hc)
    | cons f2 fs =>
      rw [intercalate_cons_cons] at h
      intro g hg c hc
      rcases List.mem_cons.1 hg with hg | hg
      · subst hg
        exact h c (by simp [hc])
      · exact ih (fun x hx => h x (by simp [hx])) g hg c hc

theorem scanField_fields (d : Nat) (selmax : Int) (fs : List (List Nat)) :
    ∀ (fuel field : Nat), fs ≠ [] → (∀ f ∈ fs, ∀ c ∈ f, c ≠ d) →
      (∀ c ∈ List.intercalate [d] fs, c ≠ 0) →
      field + fs.length < MAXFIELDS → fs.length ≤ fuel →
      scanField false [d] selmax fuel field (List.intercalate [d] fs) =
        .ok (fs.take (max 1 (min fs.length (selmax - (field : Int)).toNat))) := by
  induction fs with
  | nil => intro _ _ h; exact absurd rfl h
  | cons f fs ih =>
    intro fuel field _ hd hnul hf hfuel
    cases fuel with
    | zero => simp at hfuel
    | succ fuel =>
      simp only [List.length_cons] at hf hfuel
      have hf1 : ¬ field + 1 ≥ MAXFIELDS := by omega
      have hdf : ∀ c ∈ f, c ≠ d := hd f (by simp)
      have h0f : ∀ c ∈ f, c ≠ 0 := no_nul_fields d (f :: fs) hnul f (by simp)
      cases fs with
      | nil =>
        have hs := strcspn_field f [] d hdf h0f (Or.inl rfl)
        rw [List.append_nil] at hs
        have hk : max 1 (min [f].length (selmax - (field : Int)).toNat) = 1 := by
          simp only [List.length_singleton]; omega
        rw [intercalate_singleton, hk]
        simp [scanField, hf1, hs, deref]
      | cons f2 fs =>
        rw [intercalate_cons_cons] at hnul ⊢
        have hd0 : d ≠ 0 := fun h => hnul d (by simp) h
        have hs := strcspn_field f (d :: List.intercalate [d] (f2 :: fs)) d hdf h0f
          (Or.inr ⟨_, rfl⟩)
        have hderef : deref ((f ++ d :: List.intercalate [d] (f2 :: fs)).drop f.length) = d := by
          simp [deref]
        have hdrop : (f ++ d :: List.intercalate [d] (f2 :: fs)).drop (f.length + 1)
            = List.intercalate [d] (f2 :: fs) := by
          rw [← List.drop_drop]
          simp
        have htake : (f ++ d :: List.intercalate [d] (f2 :: fs)).take f.length = f := by
          simp
        simp only [scanField, hf1, hs, hderef, hdrop, htake, if_false, hd0, decide_False,
          Bool.false_eq_true]
        by_cases hmax : ((field + 1 : Nat) : Int) ≥ selmax
        · have hk : max 1 (min (f :: f2 :: fs).length (selmax - (field : Int)).toNat) = 1 := by
            simp only [List.length_cons]; omega
          rw [if_pos hmax, hk]
          rfl
        · have hrec := ih fuel (field + 1) (by simp) (fun x hx => hd x (by simp [hx]))
            (fun c hc => hnul c (by simp [hc])) (by simp only [List.length_cons] at hf ⊢; omega)
            (by simp only [List.length_cons] at hfuel ⊢; omega)
          rw [if_neg hmax, hrec]
          have hk : max 1 (min (f :: f2 :: fs).length (selmax - (field : Int)).toNat)
              = max 1 (min (f2 :: fs).length (selmax - ((field + 1 : Nat) : Int)).toNat) + 1 := by
            simp only [List.length_cons]; omega
          rw [hk]
          rfl

/-! ## FIELD mode: projection of a line -/

theorem mem_indexRange (b e j : Int) (h : j ∈ indexRange b e) : b ≤ j ∧ j ≤ e := by
  unfold indexRange at h
  obtain ⟨k, hk, rfl⟩ := List.mem_map.1 h
  have := List.mem_range.1 hk
  omega

theorem tableGet_take (fs : List (List Nat)) (k : Nat) (j : Int) (hk : 1 ≤ k)
    (hj : j ≤ (k : Int)) :
    tableGet (fs.take k) j = fieldAt fs j := by
  unfold tableGet fieldAt
  by_cases h0 : j = 0
  · simp [h0]
  · simp only [h0, if_false, List.getD_eq_getElem?_getD]
    rw [List.getElem?_take_of_lt (by omega)]

theorem requested_early_stop (sels : List Selector) (selmax : Int) (n : Nat) (hn : 1 ≤ n)
    (hends : ∀ s ∈ sels, s.end_ ≤ selmax) :
    requested sels (max 1 (min n selmax.toNat)) = requested sels n := by
  unfold requested
  congr 1
  apply List.map_congr_left
  intro s hs
  have := hends s hs
  congr 1
  omega

theorem mem_requested (sels : List Selector) (n : Nat) (j : Int) (h : j ∈ requested sels n) :
    j ≤ (n : Int) := by
  unfold requested at h
  obtain ⟨l, hl, hj⟩ := List.mem_flatten.1 h
  obtain ⟨s, _, rfl⟩ := List.mem_map.1 hl
  have := (mem_indexRange _ _ _ hj).2
  omega

/-- The FIELD projection of a line made of the fields `fs`, for a selector
list whose ends are bounded by `selmax` and whose begins are not negative, and
an output delimiter that is not NUL when a separator is written. -/
theorem ProcessLine_field_general (d o : Nat) (st : SelState) (fs : List (List Nat))
    (hends : EndsBelowMax st) (hbeg : ∀ s ∈ st.selectors, 0 ≤ s.begin)
    (hne : fs ≠ []) (hlen : fs.length ≤ 1023) (hd : ∀ f ∈ fs, ∀ c ∈ f, c ≠ d)
    (hnul : ∀ c ∈ List.intercalate [d] fs, c ≠ 0)
    (ho : o ≠ 0 ∨ (requested st.selectors fs.length).length ≤ 1) :
    ProcessLine .FIELD false false [d] o st (List.intercalate [d] fs) =
      .ok (List.intercalate [o] ((requested st.selectors fs.length).map (fieldAt fs))
            ++ [10]) := by
  have hn : 1 ≤ fs.length := by
    cases fs with
    | nil => exact absurd rfl hne
    | cons f fs => simp
  have hscan := scanField_fields d st.selmax fs MAXFIELDS 0 hne hd hnul
    (by simp only [MAXFIELDS]; omega) (by simp only [MAXFIELDS]; omega)
  simp only [Nat.cast_zero, sub_zero] at hscan
  have hK : (fs.take (max 1 (min fs.length st.selmax.toNat))).length
      = max 1 (min fs.length st.selmax.toNat) := by
    rw [List.length_take]; omega
  have hreq := requested_early_stop st.selectors st.selmax fs.length hn hends
  have hw := writeFields_indices (fs.take (max 1 (min fs.length st.selmax.toNat))) o
    st.selectors 0 hbeg (by rw [hK, hreq]; simpa using ho)
  rw [hK, hreq, joinFrom_zero] at hw
  have hmap : (requested st.selectors fs.length).map
        (tableGet (fs.take (max 1 (min fs.length st.selmax.toNat))))
      = (requested st.selectors fs.length).map (fieldAt fs) := by
    apply List.map_congr_left
    intro j hj
    apply tableGet_take _ _ _ (by omega)
    have h1 : j ∈ requested st.selectors (max 1 (min fs.length st.selmax.toNat)) := by
      rw [hreq]; exact hj
    exact mem_requested _ _ _ h1
  rw [hmap] at hw
  simp only [ProcessLine, SelectorGetMax, hscan, hw]
  simp

theorem requested_nonneg (sels : List Selector) (n : Nat) (j : Int)
    (hb : ∀ s ∈ sels, 0 ≤ s.begin) (h : j ∈ requested sels n) : 0 ≤ j := by
  unfold requested at h
  obtain ⟨l, hl, hj⟩ := List.mem_flatten.1 h
  obtain ⟨s, hs, rfl⟩ := List.mem_map.1 hl
  have := (mem_indexRange _ _ _ hj).1
  have := hb s hs
  omega

/-! ## FIELD mode: the claims -/

/-- C1, as the code has it: for a selector list produced by parsing whose
begins are not negative, an input delimiter `d`, a line without NUL byte that
splits on `d` into the fields `f_1 .. f_n`, `1 <= n <= 1023`, and an output
delimiter `o` that is not NUL when more than one field is emitted,
suppression inactive, the output is the fields `f_j` for `j` in the requested
indices (`f_0` empty), in request order with repetitions, joined by one `o`
between consecutive fields, followed by one newline. -/
theorem ProcessLine_field_request_order (arg : List Nat) (st : SelState) (d o : Nat)
    (fs : List (List Nat)) (hparse : ListParseOpt arg = .ok st)
    (hbeg : ∀ s ∈ st.selectors, 0 ≤ s.begin)
    (hne : fs ≠ []) (hlen : fs.length ≤ 1023) (hd : ∀ f ∈ fs, ∀ c ∈ f, c ≠ d)
    (hnul : ∀ c ∈ List.intercalate [d] fs, c ≠ 0)
    (ho : o ≠ 0 ∨ (requested st.selectors fs.length).length ≤ 1) :
    ProcessLine .FIELD false false [d] o st (List.intercalate [d] fs) =
      .ok (List.intercalate [o] ((requested st.selectors fs.length).map (fieldAt fs))
            ++ [10]) :=
  ProcessLine_field_general d o st fs (ListParseOpt_ends arg st hparse) hbeg hne hlen hd hnul ho

/-- C1 at the spec `1,3,2` over `a,b,c`: the output `a,c,b` and a newline. -/
theorem ProcessLine_field_request_order_witness :
    List.intercalate [44] [[97], [98], [99]] = bytes "a,b,c" ∧
    ProcessLine .FIELD false false [44] 44
      { selectors := [{ begin := 1, end_ := 1 }, { begin := 3, end_ := 3 },
          { begin := 2, end_ := 2 }], selmax := 3 }
      (List.intercalate [44] [[97], [98], [99]]) = .ok (bytes "a,c,b\n") :=
  ⟨by decide,
   ProcessLine_field_request_order (bytes "1,3,2")
    { selectors := [{ begin := 1, end_ := 1 }, { begin := 3, end_ := 3 },
        { begin := 2, end_ := 2 }], selmax := 3 } 44 44 [[97], [98], [99]]
    (by decide) (by decide) (by decide) (by decide) (by decide) (by decide) (by decide)⟩

/-- C1 fails as stated, in three ways.  On the line `a NUL b , c` (fields
`a NUL b` and `c`) with the spec `1,2` the scan stops at the NUL byte and the
output is `a`, not the two fields.  The spec `2147483648` parses, by
wrap-around, to an interval with a negative begin, on which the output loop
reads outside the table.  And with the NUL output delimiter the spec `1,2`
over `a,b` stops at the first separator, whose `putc` returns 0. -/
theorem ProcessLine_field_request_order_counterexample :
    (ListParseOpt (bytes "1,2") =
        .ok { selectors := [{ begin := 1, end_ := 1 }, { begin := 2, end_ := 2 }],
              selmax := 2 } ∧
      ProcessLine .FIELD false false [44] 44
        { selectors := [{ begin := 1, end_ := 1 }, { begin := 2, end_ := 2 }], selmax := 2 }
        (List.intercalate [44] [[97, 0, 98], [99]]) = .ok [97, 10] ∧
      List.intercalate [44]
        ((requested [{ begin := 1, end_ := 1 }, { begin := 2, end_ := 2 }] 2).map
          (fieldAt [[97, 0, 98], [99]])) ++ [10] = [97, 0, 98, 44, 99, 10]) ∧
    (ListParseOpt (bytes "2147483648") =
        .ok { selectors := [{ begin := -2147483648, end_ := -2147483648 }], selmax := 0 } ∧
      ProcessLine .FIELD false false [44] 44
        { selectors := [{ begin := -2147483648, end_ := -2147483648 }], selmax := 0 }
        [97] = .error .InvalidAccess) ∧
    (ProcessLine .FIELD false false [44] 0
        { selectors := [{ begin := 1, end_ := 1 }, { begin := 2, end_ := 2 }], selmax := 2 }
        (List.intercalate [44] [[97], [98]]) = .error .OutputWriteFailed ∧
      List.intercalate [0]
        ((requested [{ begin := 1, end_ := 1 }, { begin := 2, end_ := 2 }] 2).map
          (fieldAt [[97], [98]])) ++ [10] = [97, 0, 98, 10]) := by
  decide

/-- C10, as the code has it: with `-s` inactive, for a selector list produced
by parsing whose begins are not negative, a line without NUL byte and without
the delimiter `d`, and an output delimiter `o` that is not NUL when more than
one field is emitted, the line is projected as the single field `f_1`: the
output is the line for every requested index 1 and the empty string for every
requested index 0, joined by `o`, followed by one newline; it is the line
itself followed by one newline when the requested indices are just `[1]`. -/
theorem ProcessLine_field_no_delimiter (arg : List Nat) (st : SelState) (d o : Nat)
    (line : List Nat) (hparse : ListParseOpt arg = .ok st)
    (hbeg : ∀ s ∈ st.selectors, 0 ≤ s.begin)
    (hd : ∀ c ∈ line, c ≠ d) (hnul : ∀ c ∈ line, c ≠ 0)
    (ho : o ≠ 0 ∨ (requested st.selectors 1).length ≤ 1) :
    ProcessLine .FIELD false false [d] o st line =
        .ok (List.intercalate [o]
              ((requested st.selectors 1).map (fun j => if j = 0 then [] else line)) ++ [10]) ∧
      (requested st.selectors 1 = [1] →
        ProcessLine .FIELD false false [d] o st line = .ok (line ++ [10])) := by
  have h := ProcessLine_field_general d o st [line] (ListParseOpt_ends arg st hparse) hbeg
    (by simp) (by simp) (by simpa using hd) (by simpa [intercalate_singleton] using hnul)
    (by simpa using ho)
  rw [intercalate_singleton] at h
  have hmap : (requested st.selectors [line].length).map (fieldAt [line])
      = (requested st.selectors 1).map (fun j => if j = 0 then [] else line) := by
    apply List.map_congr_left
    intro j hj
    have h0 := requested_nonneg _ _ _ hbeg hj
    have h1 := mem_requested _ _ _ hj
    simp only [List.length_singleton, Nat.cast_one] at h1
    unfold fieldAt
    by_cases hj0 : j = 0
    · simp [hj0]
    · have hj1 : j = 1 := by omega
      subst hj1
      simp
  rw [hmap] at h
  refine ⟨h, fun h1 => ?_⟩
  rw [h, h1]
  simp [List.intercalate]

/-- C10 at the spec `1-` over `abc` with delimiter `,`: the line itself. -/
theorem ProcessLine_field_no_delimiter_witness :
    ProcessLine .FIELD false false [44] 44
        { selectors := [{ begin := 1, end_ := 511 }], selmax := 511 } (bytes "abc") =
        .ok (List.intercalate [44]
              ((requested [{ begin := 1, end_ := 511 }] 1).map
                (fun j => if j = 0 then [] else bytes "abc")) ++ [10]) ∧
      (requested [{ begin := 1, end_ := 511 }] 1 = [1] →
        ProcessLine .FIELD false false [44] 44
          { selectors := [{ begin := 1, end_ := 511 }], selmax := 511 } (bytes "abc") =
          .ok (bytes "abc" ++ [10])) :=
  ProcessLine_field_no_delimiter (bytes "1-")
    { selectors := [{ begin := 1, end_ := 511 }], selmax := 511 } 44 44 (bytes "abc")
    (by decide) (by decide) (by decide) (by decide) (by decide)

/-- C10 fails as stated, with the delimiter `,` on lines that have none.  With
the spec `2` the line `abc` gives an empty output line, not `abc`.  With the
spec `1` the line `a NUL b` gives `a`, the scan stopping at the NUL byte.
With the spec `2147483648`, parsed by wrap-around to a negative begin, the
output loop reads outside the table.  And with the spec `1,1` and the NUL
output delimiter the output stops at the separator, whose `putc` returns 0. -/
theorem ProcessLine_field_no_delimiter_counterexample :
    (ListParseOpt (bytes "2") =
        .ok { selectors := [{ begin := 2, end_ := 2 }], selmax := 2 } ∧
      ProcessLine .FIELD false false [44] 44
        { selectors := [{ begin := 2, end_ := 2 }], selmax := 2 } (bytes "abc") = .ok [10] ∧
      ProcessLine .FIELD false false [44] 44
        { selectors := [{ begin := 2, end_ := 2 }], selmax := 2 } (bytes "abc")
        ≠ .ok (bytes "abc" ++ [10])) ∧
    (ListParseOpt (bytes "1") =
        .ok { selectors := [{ begin := 1, end_ := 1 }], selmax := 1 } ∧
      ProcessLine .FIELD false false [44] 44
        { selectors := [{ begin := 1, end_ := 1 }], selmax := 1 } [97, 0, 98] = .ok [97, 10] ∧
      ProcessLine .FIELD false false [44] 44
        { selectors := [{ begin := 1, end_ := 1 }], selmax := 1 } [97, 0, 98]
        ≠ .ok ([97, 0, 98] ++ [10])) ∧
    (ListParseOpt (bytes "2147483648") =
        .ok { selectors := [{ begin := -2147483648, end_ := -2147483648 }], selmax := 0 } ∧
      ProcessLine .FIELD false false [44] 44
        { selectors := [{ begin := -2147483648, end_ := -2147483648 }], selmax := 0 }
        (bytes "abc") = .error .InvalidAccess) ∧
    (ListParseOpt (bytes "1,1") =
        .ok { selectors := [{ begin := 1, end_ := 1 }, { begin := 1, end_ := 1 }],
              selmax := 1 } ∧
      ProcessLine .FIELD false false [44] 0
        { selectors := [{ begin := 1, end_ := 1 }, { begin := 1, end_ := 1 }], selmax := 1 }
        (bytes "abc") = .error .OutputWriteFailed) := by
  decide

/-! ## Where the code departs from the specification -/

/-- C6, the code on a line of 512 empty fields (511 delimiters) with the
selector list of `1-`: the scan stops at field 511, the value of
`SELENDLINE`, and the output has 510 delimiters, not the 511 of the line. -/
theorem ProcessLine_identity_512_fields :
    ListParseOpt (bytes "1-") =
      .ok { selectors := [{ begin := 1, end_ := 511 }], selmax := 511 } ∧
    ProcessLine .FIELD false false [44] 44
      { selectors := [{ begin := 1, end_ := 511 }], selmax := 511 } (List.replicate 511 44) =
      .ok (List.replicate 510 44 ++ [10]) := by
  constructor
  · decide
  · decide!

/-- C7, the code in CHAR mode with the selector list of `2-10` over `abcd`:
the slice starts at the first character, not at the second, and the output is
`abcd`. -/
theorem ProcessLine_char_2_10 :
    ListParseOpt (bytes "2-10") =
      .ok { selectors := [{ begin := 2, end_ := 10 }], selmax := 10 } ∧
    ProcessLine .CHAR false false [9] 9
      { selectors := [{ begin := 2, end_ := 10 }], selmax := 10 } (bytes "abcd") =
      .ok (bytes "abcd\n") := by
  decide

/-- C8, the code with the selector list of `2-1` over `ab`: BYTE mode writes
`ba`, CHAR mode writes `ab`. -/
theorem ProcessLine_descending_2_1 :
    ListParseOpt (bytes "2-1") =
      .ok { selectors := [{ begin := 2, end_ := 2 }, { begin := 1, end_ := 1 }],
            selmax := 2 } ∧
    ProcessLine .BYTE false false [9] 9
      { selectors := [{ begin := 2, end_ := 2 }, { begin := 1, end_ := 1 }], selmax := 2 }
      (bytes "ab") = .ok (bytes "ba\n") ∧
    ProcessLine .CHAR false false [9] 9
      { selectors := [{ begin := 2, end_ := 2 }, { begin := 1, end_ := 1 }], selmax := 2 }
      (bytes "ab") = .ok (bytes "ab\n") := by
  decide

/-- C9, the code with `-s`, the delimiter `,` and the selector list of `1`:
the line `a,b`, which has a delimiter, writes nothing, because the scan stops
after field 1 and leaves `FieldQty` at 1. -/
theorem ProcessLine_suppress_delimited :
    ListParseOpt (bytes "1") =
      .ok { selectors := [{ begin := 1, end_ := 1 }], selmax := 1 } ∧
    ProcessLine .FIELD true false [44] 44
      { selectors := [{ begin := 1, end_ := 1 }], selmax := 1 } (bytes "a,b") = .ok [] := by
  decide

/-! ## The fuel of the loops is never short -/

theorem NumParseLoop_length (p : List Nat) : ∀ acc : Int,
    (NumParseLoop p acc).2.length ≤ p.length := by
  induction p with
  | nil => intro acc; simp [NumParseLoop]
  | cons c q ih =>
    intro acc
    simp only [NumParseLoop]
    split
    · have := ih (wrap32 (wrap32 (acc * 10) + ((c : Int) - 48)))
      simp only [List.length_cons]; omega
    · simp

theorem NumParse_length (p q : List Nat) (n : Int) (h : NumParse p = .ok (n, q)) :
    q.length ≤ p.length := by
  simp only [NumParse] at h
  split at h
  · exact absurd h (by simp)
  · have h2 := Except.ok.inj h
    have := NumParseLoop_length p 0
    rw [h2] at this
    exact this

/-- One more unit of fuel does not change the result of the parse loop once
the fuel exceeds the length of the text left, so the loop of `ListParseOpt`
always ends by its own exits. -/
theorem ListParseLoop_fuel (fuel : Nat) : ∀ (p : List Nat) (st : SelState),
    p.length < fuel → ListParseLoop (fuel + 1) p st = ListParseLoop fuel p st := by
  induction fuel with
  | zero => intro p st h; omega
  | succ fuel ih =>
    intro p st hp
    rw [ListParseLoop, ListParseLoop]
    by_cases h0 : deref p = 0
    · simp only [h0, if_true]
    · simp only [h0, if_false]
      have hb : ∀ (n : Int) (p1 : List Nat),
          (if isdigit (deref p) then NumParse p else .ok (1, p)) = .ok (n, p1) →
          p1.length ≤ p.length := by
        intro n p1 h
        split at h
        · exact NumParse_length p p1 n h
        · have h2 := Except.ok.inj h
          simp only [Prod.mk.injEq] at h2
          rw [← h2.2]
      cases h1 : (if isdigit (deref p) then NumParse p else .ok (1, p)) with
      | error f => rfl
      | ok r =>
        obtain ⟨n, p1⟩ := r
        have hp1 := hb n p1 h1
        simp only []
        have he : ∀ (m : Int) (p2 : List Nat),
            (if deref p1 = 45 then
               (if isdigit (deref p1.tail) then NumParse p1.tail
                else .ok (SELENDLINE, p1.tail))
             else .ok (n, p1)) = .ok (m, p2) → p2.length ≤ p1.length := by
          intro m p2 h
          split at h
          · split at h
            · have := NumParse_length p1.tail p2 m h
              simp only [List.length_tail] at this; omega
            · have h2 := Except.ok.inj h
              simp only [Prod.mk.injEq] at h2
              rw [← h2.2]; simp
          · have h2 := Except.ok.inj h
            simp only [Prod.mk.injEq] at h2
            rw [← h2.2]
        cases h2 : (if deref p1 = 45 then
               (if isdigit (deref p1.tail) then NumParse p1.tail
                else .ok (SELENDLINE, p1.tail))
             else .ok (n, p1)) with
        | error f => rfl
        | ok r2 =>
          obtain ⟨m, p2⟩ := r2
          have hp2 := he m p2 h2
          simp only []
          split
          · rfl
          · cases SelectorAppend st n m with
            | error f => rfl
            | ok st1 =>
              simp only []
              split
              · rename_i h44
                have hne : p2 ≠ [] := by
                  intro h; rw [h] at h44; exact absurd h44 (by decide)
                have hl : p2.tail.length < fuel := by
                  have := List.length_pos.2 hne
                  simp only [List.length_tail]; omega
                exact ih p2.tail st1 hl
              · rfl

theorem NextCharSkip_length (len : Nat) : ∀ q : List Nat,
    (NextCharSkip len q).length ≤ q.length := by
  induction len with
  | zero => intro q; simp [NextCharSkip]
  | succ len ih =>
    intro q
    simp only [NextCharSkip]
    split
    · exact le_refl _
    · have := ih q.tail
      simp only [List.length_tail] at this; omega

theorem NextChar_length_lt (p : List Nat) (h : deref p ≠ 0) :
    (NextChar p).length < p.length := by
  cases p with
  | nil => exact absurd rfl h
  | cons c q =>
    have hstep : ∀ len : Nat, (NextCharSkip (len + 1) (c :: q)).length < (c :: q).length := by
      intro len
      simp only [NextCharSkip, h, if_false, List.tail_cons, List.length_cons]
      have := NextCharSkip_length len q
      omega
    unfold NextChar
    simp only []
    split
    · exact hstep 0
    · split
      · exact hstep 1
      · split
        · exact hstep 2
        · split
          · exact hstep 3
          · exact hstep 0

/-- One more unit of fuel does not change the result of the character loop
once the fuel covers the bytes left, so the loop always ends by its own
condition. -/
theorem charAdvance_fuel (fuel : Nat) : ∀ (range : Int) (pos2 : List Nat),
    pos2.length ≤ fuel → charAdvance (fuel + 1) range pos2 = charAdvance fuel range pos2 := by
  induction fuel with
  | zero =>
    intro range pos2 h
    have : pos2 = [] := List.length_eq_zero.1 (by omega)
    subst this
    simp [charAdvance, deref]
  | succ fuel ih =>
    intro range pos2 h
    by_cases hc : range ≠ 0 ∧ deref pos2 ≠ 0
    · have e1 : charAdvance (fuel + 1 + 1) range pos2
          = charAdvance (fuel + 1) (range - 1) (NextChar pos2) := by
        rw [charAdvance, if_pos hc]
      have e2 : charAdvance (fuel + 1) range pos2
          = charAdvance fuel (range - 1) (NextChar pos2) := by
        rw [charAdvance, if_pos hc]
      have hl := NextChar_length_lt pos2 hc.2
      rw [e1, e2]
      exact ih _ _ (by omega)
    · have e1 : charAdvance (fuel + 1 + 1) range pos2 = pos2 := by
        rw [charAdvance, if_neg hc]
      have e2 : charAdvance (fuel + 1) range pos2 = pos2 := by
        rw [charAdvance, if_neg hc]
      rw [e1, e2]

/-- A file of the single line `line`, newline-terminated, is processed as
that line. -/
theorem ProcessFile_single (mode : Mode) (opts optw : Bool) (delim : List Nat) (odelim : Nat)
    (st : SelState) (line : List Nat) :
    ProcessFile mode opts optw delim odelim st [line ++ [10]] =
      ProcessLine mode opts optw delim odelim st line := by
  have hs : stripNewline (line ++ [10]) = line := by
    simp [stripNewline]
  simp only [ProcessFile, hs]
  cases ProcessLine mode opts optw delim odelim st line with
  | error f => rfl
  | ok out => simp

/-! ## `NextChar` and CHAR mode -/

theorem strlen_cons_nonzero (c : Nat) (q : List Nat) (h : c ≠ 0) :
    strlen (c :: q) = strlen q + 1 := by
  unfold strlen
  rw [List.takeWhile_cons_of_pos (by simpa using h)]
  rfl

theorem strlen_of_deref_zero (q : List Nat) (h : deref q = 0) : strlen q = 0 := by
  cases q with
  | nil => rfl
  | cons c q =>
    have hc : c = 0 := h
    subst hc
    simp [strlen]

theorem strlen_le_length (q : List Nat) : strlen q ≤ q.length := by
  unfold strlen
  exact (List.takeWhile_sublist _).length_le

theorem NextCharSkip_drop (len : Nat) : ∀ q : List Nat,
    NextCharSkip len q = q.drop (min len (strlen q)) := by
  induction len with
  | zero => intro q; simp [NextCharSkip]
  | succ len ih =>
    intro q
    simp only [NextCharSkip]
    by_cases h : deref q = 0
    · simp [h, strlen_of_deref_zero q h]
    · cases q with
      | nil => exact absurd rfl h
      | cons c q =>
        have hc : c ≠ 0 := h
        rw [if_neg h, List.tail_cons, ih q, strlen_cons_nonzero c q hc]
        have : min (len + 1) (strlen q + 1) = min len (strlen q) + 1 := by omega
        rw [this]
        rfl

theorem NextChar_drop (p : List Nat) :
    NextChar p = p.drop (min (charLen (deref p)) (strlen p)) := by
  unfold NextChar charLen
  exact NextCharSkip_drop _ p

/-- C19: `NextChar` at the position `p` returns `p + min(k, d)`, with `k` the
classified length of the byte at `p` (1, 2, 3, 4 by the thresholds 0x80, 0x88,
0x90, 0x98, and 1 otherwise) and `d` the number of bytes from `p` to the first
NUL; the result is never past the NUL terminator, and it lies strictly after
`p` if and only if the byte at `p` is not NUL. -/
theorem NextChar_advance (p : List Nat) :
    NextChar p = p.drop (min (charLen (deref p)) (strlen p)) ∧
    min (charLen (deref p)) (strlen p) ≤ strlen p ∧
    strlen p ≤ p.length ∧
    (0 < min (charLen (deref p)) (strlen p) ↔ deref p ≠ 0) := by
  refine ⟨NextChar_drop p, Nat.min_le_right _ _, strlen_le_length p, ?_⟩
  have hk : 1 ≤ charLen (deref p) := by
    unfold charLen
    split_ifs <;> omega
  by_cases h : deref p = 0
  · simp [h, strlen_of_deref_zero p h]
  · cases p with
    | nil => exact absurd rfl h
    | cons c q =>
      have hc : c ≠ 0 := h
      rw [strlen_cons_nonzero c q hc]
      constructor
      · intro _; exact h
      · intro _; omega

theorem charAdvance_drop (fuel : Nat) : ∀ (range : Int) (pos2 : List Nat),
    ∃ k, k ≤ pos2.length ∧ charAdvance fuel range pos2 = pos2.drop k := by
  induction fuel with
  | zero => intro range pos2; exact ⟨0, by omega, rfl⟩
  | succ fuel ih =>
    intro range pos2
    simp only [charAdvance]
    split
    · obtain ⟨k, hk, h⟩ := ih (range - 1) (NextChar pos2)
      rw [h, NextChar_drop, List.drop_drop]
      rw [NextChar_drop, List.length_drop] at hk
      have := strlen_le_length pos2
      exact ⟨min (charLen (deref pos2)) (strlen pos2) + k, by omega, by rw [Nat.add_comm]⟩
    · exact ⟨0, by omega, rfl⟩

theorem scanChar_consecutive (linelen : Int) (sels : List Selector) :
    ∀ (field : Nat) (pos : List Nat), field + sels.length < MAXFIELDS →
      ∃ tbl k, scanChar linelen field pos sels = .ok tbl ∧ tbl.flatten = pos.take k := by
  induction sels with
  | nil => intro field pos _; exact ⟨[], 0, rfl, by simp⟩
  | cons s rest ih =>
    intro field pos hf
    simp only [List.length_cons] at hf
    simp only [scanChar]
    cases hclip : clipRange linelen s with
    | none =>
      simp only []
      exact ih field pos (by omega)
    | some r =>
      obtain ⟨rangeBegin, rangeEnd⟩ := r
      simp only []
      rw [if_neg (by omega)]
      obtain ⟨a, ha, hadv⟩ := charAdvance_drop pos.length (rangeEnd - rangeBegin + 1) pos
      obtain ⟨tbl, k, h1, h2⟩ := ih (field + 1) (pos.drop a) (by omega)
      rw [hadv, h1]
      refine ⟨_, a + k, rfl, ?_⟩
      have hlen : pos.length - (pos.drop a).length = a := by
        rw [List.length_drop]; omega
      rw [List.flatten_cons, h2, hlen, List.take_add]

/-- C20: in CHAR mode, for every selector list within the capacity `SELMAX`
and every line, the slices stored by the scan are consecutive pieces of the
line starting at its first byte, whatever the begins of the intervals are, so
the output without its final newline is an initial segment of the line. -/
theorem ProcessLine_char_initial_segment (opts optw : Bool) (delim : List Nat) (odelim : Nat)
    (st : SelState) (line : List Nat) (hcap : selcnt st ≤ SELMAX) :
    ∃ tbl k, scanChar line.length 0 line st.selectors = .ok tbl ∧
      tbl.flatten = line.take k ∧
      ProcessLine .CHAR opts optw delim odelim st line = .ok (line.take k ++ [10]) := by
  obtain ⟨tbl, k, h1, h2⟩ := scanChar_consecutive line.length st.selectors 0 line
    (by simp only [selcnt, SELMAX, MAXFIELDS] at *; omega)
  refine ⟨tbl, k, h1, h2, ?_⟩
  simp only [ProcessLine, h1, writeSlices_eq_flatten, h2]

/-- C20 at the selector list of `3,1` over `abcd`: the output is `ab`, the
first two bytes of the line. -/
theorem ProcessLine_char_initial_segment_witness :
    selcnt { selectors := [{ begin := 3, end_ := 3 }, { begin := 1, end_ := 1 }],
             selmax := 3 } ≤ SELMAX ∧
    ∃ tbl k, scanChar (bytes "abcd").length 0 (bytes "abcd")
        [{ begin := 3, end_ := 3 }, { begin := 1, end_ := 1 }] = .ok tbl ∧
      tbl.flatten = (bytes "abcd").take k ∧
      ProcessLine .CHAR false false [9] 9
        { selectors := [{ begin := 3, end_ := 3 }, { begin := 1, end_ := 1 }], selmax := 3 }
        (bytes "abcd") = .ok ((bytes "abcd").take k ++ [10]) :=
  ⟨by decide,
   ProcessLine_char_initial_segment false false [9] 9
    { selectors := [{ begin := 3, end_ := 3 }, { begin := 1, end_ := 1 }], selmax := 3 }
    (bytes "abcd") (by decide)⟩

/-! ## More places where the code departs from the specification -/

/-- C12, the code on the line `ab`: with the interval `[0,0]` before `[1,1]`
(the selector list of `0,1`) CHAR mode writes `ab`, not the `a` it writes for
`[1,1]` alone, and BYTE mode reads the byte before the line buffer. -/
theorem ProcessLine_zero_interval :
    ListParseOpt (bytes "0,1") =
      .ok { selectors := [{ begin := 0, end_ := 0 }, { begin := 1, end_ := 1 }],
            selmax := 1 } ∧
    ProcessLine .CHAR false false [9] 9
      { selectors := [{ begin := 0, end_ := 0 }, { begin := 1, end_ := 1 }], selmax := 1 }
      (bytes "ab") = .ok (bytes "ab\n") ∧
    ProcessLine .CHAR false false [9] 9
      { selectors := [{ begin := 1, end_ := 1 }], selmax := 1 } (bytes "ab")
      = .ok (bytes "a\n") ∧
    ProcessLine .BYTE false false [9] 9
      { selectors := [{ begin := 0, end_ := 0 }, { begin := 1, end_ := 1 }], selmax := 1 }
      (bytes "ab") = .error .InvalidAccess ∧
    ProcessLine .BYTE false false [9] 9
      { selectors := [{ begin := 1, end_ := 1 }], selmax := 1 } (bytes "ab")
      = .ok (bytes "a\n") := by
  decide

theorem NumParseLoop_digits_int (ds rest : List Nat) (acc : Nat)
    (hd : ∀ c ∈ ds, isdigit c = true) (hr : isdigit (deref rest) = false)
    (hv : decFrom acc ds ≤ 2147483647) :
    NumParseLoop (ds ++ rest) (acc : Int) = (((decFrom acc ds : Nat) : Int), rest) := by
  induction ds generalizing acc with
  | nil =>
    cases rest with
    | nil => simp [NumParseLoop, decFrom]
    | cons c q =>
      have : isdigit c = false := by simpa [deref] using hr
      simp [NumParseLoop, decFrom, this]
  | cons c cs ih =>
    have hc : isdigit c = true := hd c (by simp)
    have hc2 := (isdigit_iff c).1 hc
    have hge := decFrom_ge cs (acc * 10 + (c - 48))
    have hv2 : decFrom (acc * 10 + (c - 48)) cs ≤ 2147483647 := by
      simpa [decFrom] using hv
    have hw : wrap32 (wrap32 ((acc : Int) * 10) + ((c : Int) - 48))
        = ((acc * 10 + (c - 48) : Nat) : Int) := by
      rw [wrap32_small ((acc : Int) * 10) (by omega) (by omega)]
      rw [wrap32_small _ (by omega) (by omega)]
      omega
    have h3 := ih (acc * 10 + (c - 48)) (fun x hx => hd x (by simp [hx])) hv2
    simp only [List.cons_append, NumParseLoop, hc, if_true]
    rw [hw]
    exact h3

/-- Without overflow `NumParse` does what C13 says: on a numeral of value at
most `INT_MAX` it fails exactly when the value exceeds 1024 and otherwise
returns the value and the cursor after the digits. -/
theorem NumParse_no_overflow (ds rest : List Nat) (hd : ∀ c ∈ ds, isdigit c = true)
    (hr : isdigit (deref rest) = false) (hv : decVal ds ≤ 2147483647) :
    NumParse (ds ++ rest) =
      if decVal ds > 1024 then .error .ValueTooLarge
      else .ok (((decVal ds : Nat) : Int), rest) := by
  have h := NumParseLoop_digits_int ds rest 0 hd hr hv
  simp only [Nat.cast_zero] at h
  unfold NumParse
  simp only [h, MAXLINESZ, decVal]
  by_cases h2 : decFrom 0 ds > 1024
  · rw [if_pos (by omega), if_pos h2]
  · rw [if_neg (by omega), if_neg h2]

/-- C13, the code on the numerals `4294967296` and `2147483648`: the 32-bit
accumulation wraps to 0 and to -2147483648, neither exceeds 1024, and
`NumParse` returns them instead of failing. -/
theorem NumParse_wraps :
    decVal (bytes "4294967296") = 4294967296 ∧
    NumParse (bytes "4294967296") = .ok (0, []) ∧
    NumParse (bytes "2147483648") = .ok (-2147483648, []) := by
  decide!

/-- C16, the code on two option lists: with no delimiter option the output
delimiter is the space `odelim` starts with, not the tab input delimiter; and
`-D : -d ,` leaves the comma of `-d`, not the colon of `-D`. -/
theorem mainOptions_odelim :
    mainOptions mainInit [] =
      some { delim := [9], odelim := 32, optd := false, optw := false } ∧
    documentedOdelim [] = 9 ∧
    mainOptions mainInit [.D 58, .d 44] =
      some { delim := [44], odelim := 44, optd := true, optw := false } ∧
    documentedOdelim [.D 58, .d 44] = 58 := by
  decide

/-! ## The selector-list invariant -/

theorem maxEnd_append (sels : List Selector) (s : Selector) :
    maxEnd (sels ++ [s]) = max (maxEnd sels) s.end_ := by
  simp [maxEnd, List.foldl_append]

theorem foldl_max_ge (sels : List Selector) : ∀ m : Int,
    m ≤ sels.foldl (fun m s => max m s.end_) m ∧
    ∀ s ∈ sels, s.end_ ≤ sels.foldl (fun m s => max m s.end_) m := by
  induction sels with
  | nil => intro m; simp
  | cons x xs ih =>
    intro m
    have h := ih (max m x.end_)
    simp only [List.foldl_cons, List.mem_cons]
    refine ⟨by omega, ?_⟩
    intro s hs
    rcases hs with hs | hs
    · subst hs; omega
    · exact h.2 s hs

theorem foldl_max_attained (sels : List Selector) : ∀ m : Int,
    sels.foldl (fun m s => max m s.end_) m = m ∨
    ∃ s ∈ sels, s.end_ = sels.foldl (fun m s => max m s.end_) m := by
  induction sels with
  | nil => intro m; left; rfl
  | cons x xs ih =>
    intro m
    simp only [List.foldl_cons, List.mem_cons]
    rcases ih (max m x.end_) with h | ⟨s, hs, h⟩
    · rw [h]
      by_cases hx : x.end_ ≤ m
      · left; omega
      · right; exact ⟨x, Or.inl rfl, by omega⟩
    · right; exact ⟨s, Or.inr hs, h⟩

theorem SelectorInvariant_of_shape (st : SelState) (h : SelectorShape st)
    (hb : ∀ s ∈ st.selectors, 0 ≤ s.begin) : SelectorInvariant st := by
  obtain ⟨h1, h2, h3, h4⟩ := h
  have hge := foldl_max_ge st.selectors 0
  refine ⟨?_, ?_, ?_, h3, h4⟩
  · intro s hs
    refine ⟨hb s hs, h1 s hs, ?_⟩
    rw [h2]; exact hge.2 s hs
  · intro he
    rw [h2, he]; rfl
  · intro hne
    rcases foldl_max_attained st.selectors 0 with h0 | ⟨s, hs, h⟩
    · cases hsel : st.selectors with
      | nil => exact absurd hsel hne
      | cons x xs =>
        have hx : x ∈ st.selectors := by rw [hsel]; simp
        have hx0 := hb x hx
        have hx1 := h1 x hx
        have hx2 := hge.2 x hx
        refine ⟨x, by simp, ?_⟩
        rw [h2]
        show x.end_ = maxEnd st.selectors
        unfold maxEnd
        omega
    · exact ⟨s, hs, by rw [h2]; exact h⟩

theorem SelectorStore_shape (st st1 : SelState) (b e : Int) (hi : SelectorShape st)
    (hbe : b ≤ e) (he : e ≤ 1024) (h : SelectorStore st b e = .ok st1) :
    SelectorShape st1 ∧
      st1.selectors = st.selectors ++ [{ begin := b, end_ := e }] := by
  obtain ⟨h1, h2, h3, h4⟩ := hi
  unfold SelectorStore at h
  split at h
  · exact absurd h (by simp)
  · rename_i hcap
    have hst := Except.ok.inj h
    subst hst
    refine ⟨⟨?_, ?_, ?_, ?_⟩, rfl⟩
    · intro s hs
      simp only [List.mem_append, List.mem_singleton] at hs
      rcases hs with hs | hs
      · exact h1 s hs
      · subst hs; exact hbe
    · show (if e > st.selmax then e else st.selmax) = maxEnd (st.selectors ++ [_])
      rw [maxEnd_append, ← h2]
      show (if e > st.selmax then e else st.selmax) = max st.selmax e
      split <;> omega
    · show (if e > st.selmax then e else st.selmax) ≤ 1024
      split <;> omega
    · simp only [selcnt, List.length_append, List.length_singleton] at hcap ⊢
      omega

theorem SelectorDescend_shape (n : Nat) : ∀ (i : Int) (st st1 : SelState),
    SelectorShape st → i ≤ 1024 → SelectorDescend n i st = .ok st1 →
    SelectorShape st1 ∧ ∀ s ∈ st1.selectors, s ∈ st.selectors ∨ i - n < s.begin := by
  induction n with
  | zero =>
    intro i st st1 hi _ h
    have h2 := Except.ok.inj h
    subst h2
    exact ⟨hi, fun s hs => Or.inl hs⟩
  | succ n ih =>
    intro i st st1 hi hle h
    simp only [SelectorDescend] at h
    split at h
    · exact absurd h (by simp)
    · rename_i st2 h2
      obtain ⟨hs2, hsel2⟩ := SelectorStore_shape st st2 i i hi (le_refl _) hle h2
      obtain ⟨hs1, hmem⟩ := ih (i - 1) st2 st1 hs2 (by omega) h
      refine ⟨hs1, ?_⟩
      intro s hs
      rcases hmem s hs with hm | hm
      · rw [hsel2] at hm
        simp only [List.mem_append, List.mem_singleton] at hm
        rcases hm with hm | hm
        · exact Or.inl hm
        · subst hm
          right
          show i - ((n + 1 : Nat) : Int) < i
          omega
      · right
        push_cast
        omega

theorem SelectorAppend_shape (st st1 : SelState) (b e : Int) (hi : SelectorShape st)
    (hb : b ≤ 1024) (he : e ≤ 1024) (h : SelectorAppend st b e = .ok st1) :
    SelectorShape st1 ∧
      ∀ s ∈ st1.selectors, s ∈ st.selectors ∨ min b e ≤ s.begin := by
  unfold SelectorAppend at h
  split at h
  · exact absurd h (by simp)
  · split at h
    · rename_i hbe
      obtain ⟨h1, h2⟩ := SelectorStore_shape st st1 b e hi hbe he h
      refine ⟨h1, ?_⟩
      intro s hs
      rw [h2] at hs
      simp only [List.mem_append, List.mem_singleton] at hs
      rcases hs with hs | hs
      · exact Or.inl hs
      · subst hs
        right
        show min b e ≤ b
        omega
    · obtain ⟨h1, h2⟩ := SelectorDescend_shape _ b st st1 hi hb h
      refine ⟨h1, ?_⟩
      intro s hs
      rcases h2 s hs with hm | hm
      · exact Or.inl hm
      · right; omega

theorem SelectorShape_init : SelectorShape SelectorInit := by
  refine ⟨?_, rfl, by decide, by decide⟩
  intro s hs
  simp [SelectorInit] at hs

theorem appendAll_shape (calls : List (Int × Int)) : ∀ (st st1 : SelState),
    SelectorShape st → (∀ s ∈ st.selectors, 0 ≤ s.begin) →
    (∀ c ∈ calls, 0 ≤ c.1 ∧ c.1 ≤ 1024 ∧ 0 ≤ c.2 ∧ c.2 ≤ 1024) →
    appendAll st calls = .ok st1 →
    SelectorShape st1 ∧ ∀ s ∈ st1.selectors, 0 ≤ s.begin := by
  induction calls with
  | nil =>
    intro st st1 hi hb _ h
    have h2 := Except.ok.inj h
    subst h2
    exact ⟨hi, hb⟩
  | cons c rest ih =>
    intro st st1 hi hb hc h
    simp only [appendAll] at h
    split at h
    · exact absurd h (by simp)
    · rename_i st2 h2
      obtain ⟨hc1, hc2, hc3, hc4⟩ := hc c (by simp)
      obtain ⟨hs2, hm2⟩ := SelectorAppend_shape st st2 c.1 c.2 hi hc2 hc4 h2
      refine ih st2 st1 hs2 ?_ (fun x hx => hc x (by simp [hx])) h
      intro s hs
      rcases hm2 s hs with hm | hm
      · exact hb s hm
      · omega

theorem NumParse_le (p q : List Nat) (n : Int) (h : NumParse p = .ok (n, q)) :
    n ≤ 1024 := by
  simp only [NumParse, MAXLINESZ] at h
  split at h
  · exact absurd h (by simp)
  · rename_i hle
    have h2 := Except.ok.inj h
    rw [h2] at hle
    simpa using hle

theorem ListParseLoop_shape (fuel : Nat) : ∀ (p : List Nat) (st st1 : SelState),
    SelectorShape st → ListParseLoop fuel p st = .ok st1 → SelectorShape st1 := by
  induction fuel with
  | zero =>
    intro p st st1 hi h
    have h2 := Except.ok.inj h
    subst h2; exact hi
  | succ fuel ih =>
    intro p st st1 hi h
    rw [ListParseLoop] at h
    by_cases h0 : deref p = 0
    · simp only [h0, if_true] at h
      have h2 := Except.ok.inj h
      subst h2; exact hi
    · simp only [h0, if_false] at h
      cases h1 : (if isdigit (deref p) then NumParse p else .ok (1, p)) with
      | error f => rw [h1] at h; exact absurd h (by simp)
      | ok r =>
        obtain ⟨n, p1⟩ := r
        have hn : n ≤ 1024 := by
          split at h1
          · exact NumParse_le p p1 n h1
          · have h2 := Except.ok.inj h1
            simp only [Prod.mk.injEq] at h2
            omega
        rw [h1] at h
        simp only [] at h
        cases h2 : (if deref p1 = 45 then
               (if isdigit (deref p1.tail) then NumParse p1.tail
                else .ok (SELENDLINE, p1.tail))
             else .ok (n, p1)) with
        | error f => rw [h2] at h; exact absurd h (by simp)
        | ok r2 =>
          obtain ⟨m, p2⟩ := r2
          have hm : m ≤ 1024 := by
            split at h2
            · split at h2
              · exact NumParse_le p1.tail p2 m h2
              · have h3 := Except.ok.inj h2
                simp only [Prod.mk.injEq] at h3
                have h511 : SELENDLINE = 511 := rfl
                omega
            · have h3 := Except.ok.inj h2
              simp only [Prod.mk.injEq] at h3
              omega
          rw [h2] at h
          simp only [] at h
          split at h
          · exact absurd h (by simp)
          · cases h3 : SelectorAppend st n m with
            | error f => rw [h3] at h; exact absurd h (by simp)
            | ok st2 =>
              rw [h3] at h
              simp only [] at h
              have hi2 := (SelectorAppend_shape st st2 n m hi hn hm h3).1
              split at h
              · exact ih _ st2 st1 hi2 h
              · have h4 := Except.ok.inj h
                subst h4; exact hi2

/-- The selector-list invariant holds after every sequence of successful
`SelectorAppend` calls with arguments in `0 .. 1024` from `SelectorInit`. -/
theorem appendAll_invariant (calls : List (Int × Int)) (st : SelState)
    (hc : ∀ c ∈ calls, 0 ≤ c.1 ∧ c.1 ≤ 1024 ∧ 0 ≤ c.2 ∧ c.2 ≤ 1024)
    (h : appendAll SelectorInit calls = .ok st) : SelectorInvariant st := by
  obtain ⟨h1, h2⟩ := appendAll_shape calls SelectorInit st SelectorShape_init
    (fun s hs => by simp [SelectorInit] at hs) hc h
  exact SelectorInvariant_of_shape st h1 h2

/-- The selector-list invariant holds after `ListParseOpt` on a spec made of
at most 512 tokens `N`, `N-M` with `N <= M`, `-M` and empty tokens, all
numbers at most 1024. -/
theorem ListParseOpt_tokens_invariant (ts : List Token) (hv : ∀ t ∈ ts, t.Valid)
    (hl : ts.getLast? ≠ some .empty) (hn : ts.length ≤ 512) :
    ∃ st, ListParseOpt (specOf ts) = .ok st ∧ SelectorInvariant st := by
  obtain ⟨st, h1, h2⟩ := ListParseLoop_tokens ts ((specOf ts).length + 1) SelectorInit hv hl
    (by simp only [selcnt, SelectorInit, List.length_nil, SELMAX]; omega) (specOf_length ts)
  refine ⟨st, h1, SelectorInvariant_of_shape st
    (ListParseLoop_shape _ (specOf ts) SelectorInit st SelectorShape_init h1) ?_⟩
  intro s hs
  rw [h2] at hs
  simp only [SelectorInit, List.nil_append, List.mem_map] at hs
  obtain ⟨t, _, rfl⟩ := hs
  cases t <;> simp [Token.interval]

/-- C17, the code at the spec `2147483648`: `ListParseOpt` succeeds and
stores, by the wrap-around in `NumParse`, the interval
`[-2147483648, -2147483648]` with `selmax` 0, so after a successful
`ListParseOpt` a begin is negative and `selmax` is not the largest stored
end. -/
theorem ListParseOpt_negative_begin :
    ListParseOpt (bytes "2147483648") =
      .ok { selectors := [{ begin := -2147483648, end_ := -2147483648 }], selmax := 0 } ∧
    ¬ SelectorInvariant
      { selectors := [{ begin := -2147483648, end_ := -2147483648 }], selmax := 0 } := by
  constructor
  · decide!
  · intro h
    have := (h.1 _ (List.mem_singleton.2 rfl)).1
    exact absurd this (by decide)

/-! ## The capacity of the selector list -/

theorem SelectorDescend_overflow (n : Nat) : ∀ (i : Int) (st : SelState),
    selcnt st ≤ SELMAX → selcnt st + n > SELMAX →
    SelectorDescend n i st = .error .TooManySelectors := by
  induction n with
  | zero => intro i st h1 h2; omega
  | succ n ih =>
    intro i st h1 h2
    simp only [SelectorDescend]
    by_cases hc : selcnt st ≥ SELMAX
    · simp only [SelectorStore, hc, if_true]
    · rw [SelectorStore_ok st i i (by omega)]
      simp only []
      exact ih (i - 1) _ (by simp only [selcnt, List.length_append, List.length_singleton] at *; omega)
        (by simp only [selcnt, List.length_append, List.length_singleton] at *; omega)

theorem Token.count_pos (t : Token) : 1 ≤ t.count := by
  cases t <;> simp only [Token.count] <;> try omega
  split <;> omega

theorem Token.length_expansion (t : Token) : t.expansion.length = t.count := by
  cases t <;> simp only [Token.expansion, Token.count, List.length_singleton]
  split <;> simp

theorem SelectorAppend_token (st : SelState) (t : Token) (hP : t.Plain)
    (hc : selcnt st ≤ SELMAX) :
    (selcnt st + t.count ≤ SELMAX →
      ∃ st1, SelectorAppend st t.interval.begin t.interval.end_ = .ok st1 ∧
        st1.selectors = st.selectors ++ t.expansion) ∧
    (selcnt st + t.count > SELMAX →
      SelectorAppend st t.interval.begin t.interval.end_ = .error .TooManySelectors) := by
  cases t with
  | single n =>
    constructor
    · intro h
      simp only [Token.count] at h
      exact ⟨_, SelectorAppend_ascending st _ _ (by omega) (le_refl _), rfl⟩
    · intro h
      simp only [Token.count] at h
      unfold SelectorAppend
      rw [if_pos (by omega)]
  | range n m =>
    simp only [Token.interval, Token.count, Token.expansion]
    by_cases hnm : decVal n ≤ decVal m
    · simp only [hnm, if_true]
      constructor
      · intro h
        exact ⟨_, SelectorAppend_ascending st _ _ (by omega) (by exact_mod_cast hnm), rfl⟩
      · intro h
        unfold SelectorAppend
        rw [if_pos (by omega)]
    · simp only [hnm, if_false]
      have hlt : (decVal m : Int) < (decVal n : Int) := by omega
      have hcount : ((decVal n : Int) - (decVal m : Int) + 1).toNat
          = decVal n - decVal m + 1 := by omega
      constructor
      · intro h
        obtain ⟨st1, h1, h2⟩ := SelectorAppend_descending st (decVal n) (decVal m) hlt
          (by omega)
        rw [hcount] at h2
        exact ⟨st1, h1, h2⟩
      · intro h
        unfold SelectorAppend
        by_cases hfull : selcnt st ≥ SELMAX
        · rw [if_pos hfull]
        · rw [if_neg hfull, if_neg (by omega), hcount]
          exact SelectorDescend_overflow _ _ st hc (by omega)
  | upto m => exact absurd hP (by simp [Token.Plain])
  | empty => exact absurd hP (by simp [Token.Plain])

theorem step_plain (fuel : Nat) (t : Token) (rest : List Nat) (st : SelState)
    (hP : t.Plain) (hr : TokenEnd rest) :
    ListParseLoop (fuel + 1) (t.text ++ rest) st =
      afterAppend fuel rest (SelectorAppend st t.interval.begin t.interval.end_) := by
  cases t with
  | single n =>
    obtain ⟨hn, hv⟩ := hP
    exact step_single fuel n rest st hn hv hr
  | range n m =>
    obtain ⟨hn, hm, hv, hw⟩ := hP
    rw [Token.text, List.append_assoc, List.cons_append]
    exact step_range fuel n m rest st hn hv hm hw hr
  | upto m => exact absurd hP (by simp [Token.Plain])
  | empty => exact absurd hP (by simp [Token.Plain])

theorem ListParseLoop_plain (ts : List Token) :
    ∀ (fuel : Nat) (st : SelState), (∀ t ∈ ts, t.Plain) → ts.length ≤ fuel →
      selcnt st ≤ SELMAX →
      (selcnt st + (ts.map Token.count).sum ≤ SELMAX →
        ∃ st1, ListParseLoop fuel (specOf ts) st = .ok st1 ∧
          st1.selectors = st.selectors ++ (ts.map Token.expansion).flatten) ∧
      (selcnt st + (ts.map Token.count).sum > SELMAX →
        ListParseLoop fuel (specOf ts) st = .error .TooManySelectors) := by
  induction ts with
  | nil =>
    intro fuel st _ _ hc
    have h0 : specOf [] = [] := rfl
    constructor
    · intro _
      refine ⟨st, ?_, by simp⟩
      rw [h0]
      cases fuel <;> simp [ListParseLoop, deref]
    · intro h
      simp only [List.map_nil, List.sum_nil] at h
      omega
  | cons t ts ih =>
    intro fuel st hP hf hc
    cases fuel with
    | zero => simp at hf
    | succ fuel =>
      have hPt := hP t (by simp)
      have hpos := Token.count_pos t
      obtain ⟨hok, herr⟩ := SelectorAppend_token st t hPt hc
      simp only [List.map_cons, List.sum_cons, List.flatten_cons]
      cases ts with
      | nil =>
        have hstep := step_plain fuel t [] st hPt (Or.inl rfl)
        rw [List.append_nil] at hstep
        rw [specOf_singleton, hstep]
        simp only [List.map_nil, List.sum_nil, List.flatten_nil, List.append_nil, Nat.add_zero]
        constructor
        · intro h
          obtain ⟨st1, h1, h2⟩ := hok h
          rw [h1]
          exact ⟨st1, rfl, h2⟩
        · intro h
          rw [herr h]
          rfl
      | cons t2 ts =>
        have hstep := step_plain fuel t (44 :: specOf (t2 :: ts)) st hPt (Or.inr rfl)
        rw [specOf_cons_cons, hstep]
        by_cases hfit : selcnt st + t.count ≤ SELMAX
        · obtain ⟨st1, h1, h2⟩ := hok hfit
          have hcnt : selcnt st1 = selcnt st + t.count := by
            simp only [selcnt, h2, List.length_append, Token.length_expansion]
          rw [h1]
          simp only [afterAppend, deref, List.headD_cons, if_true, List.tail_cons]
          obtain ⟨ih1, ih2⟩ := ih fuel st1 (fun x hx => hP x (by simp [hx]))
            (by simp only [List.length_cons] at hf ⊢; omega) (by omega)
          constructor
          · intro h
            obtain ⟨st2, h3, h4⟩ := ih1 (by omega)
            exact ⟨st2, h3, by rw [h4, h2, List.append_assoc]⟩
          · intro h
            exact ih2 (by omega)
        · constructor
          · intro h
            have := Token.count_pos t2
            simp only [List.map_cons, List.sum_cons] at h
            omega
          · intro _
            rw [herr (by omega)]
            rfl

/-- C15: for a spec whose tokens are of the forms `N` and `N-M` (numbers at
most 1024), with `K` the number of intervals after expansion, `ListParseOpt`
succeeds and stores exactly the `K` expanded intervals when `K <= 512`, and
fails with `TooManySelectors` when `K > 512`; and every store into the
selector array is at an index below 512. -/
theorem ListParseOpt_capacity (ts : List Token) (hP : ∀ t ∈ ts, t.Plain) :
    ((ts.map Token.count).sum ≤ 512 →
      ∃ st, ListParseOpt (specOf ts) = .ok st ∧
        st.selectors = (ts.map Token.expansion).flatten ∧
        selcnt st = (ts.map Token.count).sum) ∧
    ((ts.map Token.count).sum > 512 →
      ListParseOpt (specOf ts) = .error .TooManySelectors) ∧
    (∀ (st st1 : SelState) (b e : Int), SelectorStore st b e = .ok st1 →
      selcnt st < 512 ∧ st1.selectors = st.selectors ++ [{ begin := b, end_ := e }]) := by
  obtain ⟨h1, h2⟩ := ListParseLoop_plain ts ((specOf ts).length + 1) SelectorInit hP
    (specOf_length ts) (by decide)
  have h0 : selcnt SelectorInit = 0 := rfl
  have h512 : SELMAX = 512 := rfl
  refine ⟨?_, ?_, ?_⟩
  · intro h
    obtain ⟨st, h3, h4⟩ := h1 (by omega)
    have h5 : st.selectors = (ts.map Token.expansion).flatten := by
      simpa [SelectorInit] using h4
    refine ⟨st, h3, h5, ?_⟩
    simp only [selcnt, h5, List.length_flatten, List.map_map]
    congr 1
    apply List.map_congr_left
    intro t _
    exact Token.length_expansion t
  · intro h
    exact h2 (by omega)
  · intro st st1 b e h
    unfold SelectorStore at h
    split at h
    · exact absurd h (by simp)
    · rename_i hc
      have h3 := Except.ok.inj h
      subst h3
      exact ⟨by omega, rfl⟩

/-- C15 at the specs `3-1,7` (four intervals) and `1024-1` (1024 intervals,
refused). -/
theorem ListParseOpt_capacity_witness :
    specOf [.range [51] [49], .single [55]] = bytes "3-1,7" ∧
    (∃ st, ListParseOpt (specOf [.range [51] [49], .single [55]]) = .ok st ∧
      st.selectors = ([Token.range [51] [49], Token.single [55]].map Token.expansion).flatten ∧
      selcnt st = ([Token.range [51] [49], Token.single [55]].map Token.count).sum) ∧
    specOf [.range [49, 48, 50, 52] [49]] = bytes "1024-1" ∧
    ListParseOpt (specOf [.range [49, 48, 50, 52] [49]]) = .error .TooManySelectors :=
  ⟨by decide,
   (ListParseOpt_capacity [.range [51] [49], .single [55]] (by decide)).1 (by decide),
   by decide,
   (ListParseOpt_capacity [.range [49, 48, 50, 52] [49]] (by decide)).2.1 (by decide)⟩

/-! ## The stray range marker -/

theorem NumParseLoop_split (p : List Nat) : ∀ acc : Int,
    ∃ ds, p = ds ++ (NumParseLoop p acc).2 ∧ ∀ c ∈ ds, isdigit c = true := by
  induction p with
  | nil => intro acc; exact ⟨[], rfl, by simp⟩
  | cons c q ih =>
    intro acc
    simp only [NumParseLoop]
    by_cases hc : isdigit c = true
    · obtain ⟨ds, h1, h2⟩ := ih (wrap32 (wrap32 (acc * 10) + ((c : Int) - 48)))
      refine ⟨c :: ds, ?_, ?_⟩
      · rw [if_pos hc, List.cons_append, ← h1]
      · intro x hx
        rcases List.mem_cons.1 hx with hx | hx
        · rw [hx]; exact hc
        · exact h2 x hx
    · exact ⟨[], by rw [if_neg hc]; rfl, by simp⟩

theorem NumParse_split (p q : List Nat) (n : Int) (h : NumParse p = .ok (n, q)) :
    ∃ ds, p = ds ++ q ∧ ∀ c ∈ ds, isdigit c = true := by
  simp only [NumParse] at h
  split at h
  · exact absurd h (by simp)
  · have h2 := Except.ok.inj h
    obtain ⟨ds, h3, h4⟩ := NumParseLoop_split p 0
    rw [h2] at h3
    exact ⟨ds, h3, h4⟩

theorem dropWhile_digits_append (ds q : List Nat) (hd : ∀ c ∈ ds, isdigit c = true)
    (hq : isdigit (deref q) = false) : (ds ++ q).dropWhile isdigit = q := by
  induction ds with
  | nil =>
    cases q with
    | nil => rfl
    | cons c q =>
      have hc : isdigit c = false := hq
      simp [List.dropWhile_cons, hc]
  | cons c cs ih =>
    rw [List.cons_append, List.dropWhile_cons, if_pos (hd c (by simp))]
    exact ih (fun x hx => hd x (by simp [hx]))

theorem strayDash_of_form (ds1 ds2 rest : List Nat) (h1 : ∀ c ∈ ds1, isdigit c = true)
    (h2 : ∀ c ∈ ds2, isdigit c = true) :
    strayDash (ds1 ++ 45 :: (ds2 ++ 45 :: rest)) = true := by
  unfold strayDash
  rw [dropWhile_digits_append ds1 (45 :: (ds2 ++ 45 :: rest)) h1 rfl]
  simp only []
  rw [dropWhile_digits_append ds2 (45 :: rest) h2 rfl]
  rfl

theorem splitOn_head (l : List Nat) :
    (l.splitOn 44).head? = some (l.takeWhile (fun c => c != 44)) := by
  unfold List.splitOn
  induction l with
  | nil => rfl
  | cons x xs ih =>
    rw [List.splitOnP_cons]
    by_cases hx : x = 44
    · subst hx
      simp
    · have h1 : (x == 44) = false := by simpa using hx
      have h2 : (x != 44) = true := by simpa using hx
      rw [h1]
      simp only [Bool.false_eq_true, if_false]
      rw [List.takeWhile_cons_of_pos (p := fun c => c != 44) h2]
      cases hs : List.splitOnP (fun c => c == 44) xs with
      | nil => exact absurd hs (List.splitOnP_ne_nil _ _)
      | cons t ts =>
        rw [hs] at ih
        simp only [List.head?_cons, Option.some.injEq] at ih
        simp [List.modifyHead, ih]

theorem first_token_mem (l : List Nat) :
    l.takeWhile (fun c => c != 44) ∈ l.splitOn 44 :=
  List.mem_of_mem_head? (splitOn_head l)

theorem not_comma_of_digit (c : Nat) (h : isdigit c = true) : (c != 44) = true := by
  have := (isdigit_iff c).1 h
  simp only [bne_iff_ne, ne_eq]
  omega

/-- A spec that starts with digits, `-`, digits, `-` has a first token with a
stray range marker. -/
theorem strayDash_first_token (ds1 ds2 rest : List Nat) (h1 : ∀ c ∈ ds1, isdigit c = true)
    (h2 : ∀ c ∈ ds2, isdigit c = true) :
    ∃ tok ∈ (ds1 ++ 45 :: (ds2 ++ 45 :: rest)).splitOn 44, strayDash tok = true := by
  refine ⟨_, first_token_mem _, ?_⟩
  rw [List.takeWhile_append_of_pos (p := fun c => c != 44)
    (fun c hc => not_comma_of_digit c (h1 c hc))]
  rw [List.takeWhile_cons_of_pos (p := fun c => c != 44) (a := 45) (by decide)]
  rw [List.takeWhile_append_of_pos (p := fun c => c != 44)
    (fun c hc => not_comma_of_digit c (h2 c hc))]
  rw [List.takeWhile_cons_of_pos (p := fun c => c != 44) (a := 45) (by decide)]
  exact strayDash_of_form ds1 ds2 _ h1 h2

theorem tokens_after_comma (pre rest : List Nat) (hpre : ∀ c ∈ pre, (c != 44) = true) :
    ∀ tok ∈ rest.splitOn 44, tok ∈ (pre ++ 44 :: rest).splitOn 44 := by
  intro tok htok
  unfold List.splitOn at htok ⊢
  rw [List.splitOnP_first _ _ (fun x hx => by simpa using hpre x hx) 44 (by simp)]
  exact List.mem_cons_of_mem _ htok

theorem NumParse_error (p : List Nat) (f : Failure) (h : NumParse p = .error f) :
    f = .ValueTooLarge := by
  simp only [NumParse] at h
  split at h
  · exact (Except.error.inj h).symm
  · exact absurd h (by simp)

theorem SelectorStore_error (st : SelState) (b e : Int) (f : Failure)
    (h : SelectorStore st b e = .error f) : f = .TooManySelectors := by
  unfold SelectorStore at h
  split at h
  · exact (Except.error.inj h).symm
  · exact absurd h (by simp)

theorem SelectorDescend_error (n : Nat) : ∀ (i : Int) (st : SelState) (f : Failure),
    SelectorDescend n i st = .error f → f = .TooManySelectors := by
  induction n with
  | zero => intro i st f h; exact absurd h (by simp [SelectorDescend])
  | succ n ih =>
    intro i st f h
    simp only [SelectorDescend] at h
    split at h
    · rename_i f2 h2
      have := SelectorStore_error st i i f2 h2
      rw [← Except.error.inj h]; exact this
    · exact ih _ _ f h

theorem SelectorAppend_error (st : SelState) (b e : Int) (f : Failure)
    (h : SelectorAppend st b e = .error f) : f = .TooManySelectors := by
  unfold SelectorAppend at h
  split at h
  · exact (Except.error.inj h).symm
  · split at h
    · exact SelectorStore_error st b e f h
    · exact SelectorDescend_error _ b st f h

theorem deref_eq_cons (p : List Nat) (c : Nat) (hc : c ≠ 0) (h : deref p = c) :
    p = c :: p.tail := by
  cases p with
  | nil => exact absurd h.symm hc
  | cons x xs =>
    have hx : x = c := h
    rw [hx]; rfl

theorem ListParseLoop_not_malformed (fuel : Nat) : ∀ (p : List Nat) (st : SelState),
    (∀ tok ∈ p.splitOn 44, strayDash tok = false) →
    ListParseLoop fuel p st ≠ .error .MalformedRange := by
  induction fuel with
  | zero => intro p st _ h; exact absurd h (by simp [ListParseLoop])
  | succ fuel ih =>
    intro p st H h
    rw [ListParseLoop] at h
    by_cases h0 : deref p = 0
    · simp only [h0, if_true] at h
      exact absurd h (by simp)
    · simp only [h0, if_false] at h
      cases h1 : (if isdigit (deref p) then NumParse p else .ok (1, p)) with
      | error f =>
        have hf : f = .ValueTooLarge := by
          split at h1
          · exact NumParse_error p f h1
          · exact absurd h1 (by simp)
        rw [h1] at h
        simp only [] at h
        rw [hf] at h
        exact absurd h (by simp)
      | ok r =>
        obtain ⟨n, p1⟩ := r
        have hsplit1 : ∃ ds1, p = ds1 ++ p1 ∧ ∀ c ∈ ds1, isdigit c = true := by
          split at h1
          · exact NumParse_split p p1 n h1
          · have h2 := Except.ok.inj h1
            simp only [Prod.mk.injEq] at h2
            exact ⟨[], by rw [← h2.2]; rfl, by simp⟩
        obtain ⟨ds1, hp, hd1⟩ := hsplit1
        rw [h1] at h
        simp only [] at h
        cases h2 : (if deref p1 = 45 then
               (if isdigit (deref p1.tail) then NumParse p1.tail
                else .ok (SELENDLINE, p1.tail))
             else .ok (n, p1)) with
        | error f =>
          have hf : f = .ValueTooLarge := by
            split at h2
            · split at h2
              · exact NumParse_error _ f h2
              · exact absurd h2 (by simp)
            · exact absurd h2 (by simp)
          rw [h2] at h
          simp only [] at h
          rw [hf] at h
          exact absurd h (by simp)
        | ok r2 =>
          obtain ⟨m, p2⟩ := r2
          have hsplit2 : (deref p1 = 45 →
              ∃ ds2, p1 = 45 :: (ds2 ++ p2) ∧ ∀ c ∈ ds2, isdigit c = true) ∧
              (deref p1 ≠ 45 → p2 = p1) := by
            constructor
            · intro h45
              have hp1 := deref_eq_cons p1 45 (by decide) h45
              rw [if_pos h45] at h2
              split at h2
              · obtain ⟨ds2, h3, h4⟩ := NumParse_split _ p2 m h2
                exact ⟨ds2, by rw [← h3]; exact hp1, h4⟩
              · have h3 := Except.ok.inj h2
                simp only [Prod.mk.injEq] at h3
                exact ⟨[], by rw [List.nil_append, ← h3.2]; exact hp1, by simp⟩
            · intro h45
              rw [if_neg h45] at h2
              have h3 := Except.ok.inj h2
              simp only [Prod.mk.injEq] at h3
              exact h3.2.symm
          rw [h2] at h
          simp only [] at h
          by_cases hmal : deref p1 = 45 ∧ deref p2 = 45
          · obtain ⟨ds2, hp1, hd2⟩ := hsplit2.1 hmal.1
            have hp2 := deref_eq_cons p2 45 (by decide) hmal.2
            obtain ⟨tok, htok, hstray⟩ := strayDash_first_token ds1 ds2 p2.tail hd1 hd2
            rw [← hp2, ← hp1, ← hp] at htok
            rw [H tok htok] at hstray
            exact absurd hstray (by simp)
          · rw [if_neg hmal] at h
            cases h3 : SelectorAppend st n m with
            | error f =>
              rw [h3] at h
              simp only [] at h
              rw [SelectorAppend_error st n m f h3] at h
              exact absurd h (by simp)
            | ok st2 =>
              rw [h3] at h
              simp only [] at h
              split at h
              · rename_i h44
                have hp2 := deref_eq_cons p2 44 (by decide) h44
                have hpre : ∃ pre, p = pre ++ 44 :: p2.tail ∧ ∀ c ∈ pre, (c != 44) = true := by
                  by_cases h45 : deref p1 = 45
                  · obtain ⟨ds2, hp1, hd2⟩ := hsplit2.1 h45
                    refine ⟨ds1 ++ 45 :: ds2, ?_, ?_⟩
                    · rw [hp, hp1, hp2]
                      simp
                    · intro c hc
                      simp only [List.mem_append, List.mem_cons] at hc
                      rcases hc with hc | hc | hc
                      · exact not_comma_of_digit c (hd1 c hc)
                      · rw [hc]; decide
                      · exact not_comma_of_digit c (hd2 c hc)
                  · have hp21 := hsplit2.2 h45
                    refine ⟨ds1, ?_, fun c hc => not_comma_of_digit c (hd1 c hc)⟩
                    rw [hp, ← hp21, ← hp2]
                obtain ⟨pre, hpp, hpre2⟩ := hpre
                refine ih p2.tail st2 ?_ h
                intro tok htok
                apply H
                rw [hpp]
                exact tokens_after_comma pre p2.tail hpre2 tok htok
              · exact absurd h (by simp)

theorem ListParseLoop_second_dash (fuel : Nat) (n m t : List Nat) (st : SelState)
    (hn : IsNumeral n) (hv : decVal n ≤ 1024) (hm : IsNumeral m) (hw : decVal m ≤ 1024) :
    ListParseLoop (fuel + 1) (n ++ 45 :: (m ++ 45 :: t)) st = .error .MalformedRange := by
  have h1 := isdigit_deref_numeral n (45 :: (m ++ 45 :: t)) hn
  have h0 : deref (n ++ 45 :: (m ++ 45 :: t)) ≠ 0 := by
    intro h; rw [h] at h1; exact absurd h1 (by decide)
  have h2 := NumParse_numeral n (45 :: (m ++ 45 :: t)) hn.2 rfl hv
  have h4 := isdigit_deref_numeral m (45 :: t) hm
  have h5 := NumParse_numeral m (45 :: t) hm.2 rfl hw
  have h6 : deref (45 :: (m ++ 45 :: t)) = 45 := rfl
  have h7 : deref (45 :: t) = 45 := rfl
  simp only [ListParseLoop, h0, h1, h2, h4, h5, h6, h7, List.tail_cons, if_true, if_false,
    and_self]

theorem ListParseLoop_double_dash (fuel : Nat) (n t : List Nat) (st : SelState)
    (hn : IsNumeral n) (hv : decVal n ≤ 1024) :
    ListParseLoop (fuel + 1) (n ++ 45 :: 45 :: t) st = .error .MalformedRange := by
  have h1 := isdigit_deref_numeral n (45 :: 45 :: t) hn
  have h0 : deref (n ++ 45 :: 45 :: t) ≠ 0 := by
    intro h; rw [h] at h1; exact absurd h1 (by decide)
  have h2 := NumParse_numeral n (45 :: 45 :: t) hn.2 rfl hv
  have h6 : deref (45 :: 45 :: t) = 45 := rfl
  have h7 : deref (45 :: t) = 45 := rfl
  have h8 : isdigit 45 = false := by decide
  simp only [ListParseLoop, h0, h1, h2, h6, h7, h8, List.tail_cons, if_true, if_false,
    and_self, Bool.false_eq_true]

/-- C14: for numerals `N`, `M` of value at most 1024 and every continuation
`t`, `ListParseOpt` fails with `MalformedRange` on `N-M-t` and on `N--t`; and
on a spec in which no comma-separated token reads digits, `-`, digits, `-`,
`ListParseOpt` does not fail with `MalformedRange`. -/
theorem ListParseOpt_malformed_range :
    (∀ n m t : List Nat, IsNumeral n → decVal n ≤ 1024 → IsNumeral m → decVal m ≤ 1024 →
      ListParseOpt (n ++ 45 :: (m ++ 45 :: t)) = .error .MalformedRange) ∧
    (∀ n t : List Nat, IsNumeral n → decVal n ≤ 1024 →
      ListParseOpt (n ++ 45 :: 45 :: t) = .error .MalformedRange) ∧
    (∀ arg : List Nat, (∀ tok ∈ arg.splitOn 44, strayDash tok = false) →
      ListParseOpt arg ≠ .error .MalformedRange) :=
  ⟨fun n m t hn hv hm hw => ListParseLoop_second_dash _ n m t SelectorInit hn hv hm hw,
   fun n t hn hv => ListParseLoop_double_dash _ n t SelectorInit hn hv,
   fun arg h => ListParseLoop_not_malformed _ arg SelectorInit h⟩

/-- C14 at the specs `3-5-`, `3--7` and `1,3-5,-2`. -/
theorem ListParseOpt_malformed_range_witness :
    [51] ++ 45 :: ([53] ++ 45 :: []) = bytes "3-5-" ∧
    ListParseOpt ([51] ++ 45 :: ([53] ++ 45 :: [])) = .error .MalformedRange ∧
    [51] ++ 45 :: 45 :: [55] = bytes "3--7" ∧
    ListParseOpt ([51] ++ 45 :: 45 :: [55]) = .error .MalformedRange ∧
    ListParseOpt (bytes "1,3-5,-2") ≠ .error .MalformedRange :=
  ⟨by decide,
   ListParseOpt_malformed_range.1 [51] [53] [] (by decide) (by decide) (by decide) (by decide),
   by decide,
   ListParseOpt_malformed_range.2.1 [51] [55] (by decide) (by decide),
   ListParseOpt_malformed_range.2.2 (bytes "1,3-5,-2") (by decide)⟩

/-! ## The early stop of the FIELD scan -/

theorem scanField_take_all (optw : Bool) (delim : List Nat) (selmax : Int) (fuel : Nat) :
    ∀ (field : Nat) (pos : List Nat) (tblAll : List (List Nat)),
      scanFieldAll optw delim fuel field pos = .ok tblAll →
      ∃ K, scanField optw delim selmax fuel field pos = .ok (tblAll.take K) ∧
        (K = tblAll.length ∨
          (selmax ≤ ((field + K : Nat) : Int) ∧ 1 ≤ K ∧ K ≤ tblAll.length)) := by
  induction fuel with
  | zero =>
    intro field pos tblAll h
    have h2 := Except.ok.inj h
    subst h2
    exact ⟨0, rfl, Or.inl rfl⟩
  | succ fuel ih =>
    intro field pos tblAll h
    simp only [scanFieldAll] at h
    simp only [scanField]
    generalize (if optw = true then List.drop (strspn pos delim) pos else pos) = pos1 at h ⊢
    by_cases hfield : field + 1 ≥ MAXFIELDS
    · rw [if_pos hfield] at h
      exact absurd h (by simp)
    · rw [if_neg hfield] at h ⊢
      by_cases hdone : decide (deref (List.drop (strcspn pos1 delim) pos1) = 0) = true
      · rw [if_pos hdone] at h ⊢
        have h2 := Except.ok.inj h
        subst h2
        exact ⟨1, rfl, Or.inl rfl⟩
      · rw [if_neg hdone] at h ⊢
        cases hrec : scanFieldAll optw delim fuel (field + 1)
            (List.drop (strcspn pos1 delim + 1) pos1) with
        | error f => rw [hrec] at h; exact absurd h (by simp)
        | ok tbl =>
          rw [hrec] at h
          have h2 := Except.ok.inj h
          subst h2
          by_cases hmax : ((field + 1 : Nat) : Int) ≥ selmax
          · rw [if_pos hmax]
            refine ⟨1, rfl, Or.inr ⟨by omega, le_refl _, ?_⟩⟩
            simp
          · rw [if_neg hmax]
            obtain ⟨K, hK, hcase⟩ := ih (field + 1) _ tbl hrec
            rw [hK]
            refine ⟨K + 1, rfl, ?_⟩
            rcases hcase with hc | ⟨hc1, hc2, hc3⟩
            · left; simp [hc]
            · right
              refine ⟨?_, by omega, by simp only [List.length_cons]; omega⟩
              have : field + 1 + K = field + (K + 1) := by omega
              rw [← this]; exact hc1

theorem writeRange_take (tbl : List (List Nat)) (o : Nat) (e : Int) (K : Nat)
    (hK1 : 1 ≤ K) (hK : K ≤ tbl.length) (he : e ≤ (K : Int)) (fuel1 : Nat) :
    ∀ (fuel2 : Nat) (j : Int) (outField : Nat),
      (e - j + 1).toNat ≤ fuel1 → (e - j + 1).toNat ≤ fuel2 →
      writeRange (tbl.take K) o e fuel1 j outField = writeRange tbl o e fuel2 j outField := by
  have hlen : (tbl.take K).length = K := by rw [List.length_take]; omega
  induction fuel1 with
  | zero =>
    intro fuel2 j outField h1 _
    have hje : ¬ j ≤ e := by omega
    cases fuel2 with
    | zero => rfl
    | succ fuel2 => simp only [writeRange, hje, if_false]
  | succ fuel1 ih =>
    intro fuel2 j outField h1 h2
    by_cases hje : j ≤ e
    · cases fuel2 with
      | zero => omega
      | succ fuel2 =>
        have hbig1 : ¬ j > ((tbl.take K).length : Int) := by rw [hlen]; omega
        have hbig2 : ¬ j > (tbl.length : Int) := by omega
        simp only [writeRange, hje, if_true, hbig1, hbig2, if_false]
        by_cases hneg : j < 0
        · simp only [hneg, if_true]
        · have hget : tableGet (tbl.take K) j = tableGet tbl j :=
            tableGet_take tbl K j hK1 (by omega)
          simp only [hneg, if_false, hget]
          rw [ih fuel2 (j + 1) (outField + 1) (by omega) (by omega)]
    · cases fuel2 with
      | zero => simp only [writeRange, hje, if_false]
      | succ fuel2 => simp only [writeRange, hje, if_false]

theorem writeFields_take (tbl : List (List Nat)) (o : Nat) (K : Nat)
    (hK1 : 1 ≤ K) (hK : K ≤ tbl.length) (sels : List Selector) :
    ∀ outField : Nat, (∀ s ∈ sels, s.end_ ≤ (K : Int)) →
      writeFields (tbl.take K) o sels outField = writeFields tbl o sels outField := by
  have hlen : (tbl.take K).length = K := by rw [List.length_take]; omega
  induction sels with
  | nil => intro _ _; rfl
  | cons s rest ih =>
    intro outField he
    have hs := he s (by simp)
    simp only [writeFields]
    rw [writeRange_take tbl o s.end_ K hK1 hK hs _
      (((tbl.length : Int) - s.begin + 1).toNat) s.begin outField
      (by rw [hlen]; omega) (by omega)]
    cases writeRange tbl o s.end_ ((tbl.length : Int) - s.begin + 1).toNat s.begin outField with
    | error f => rfl
    | ok r =>
      simp only []
      rw [ih r.1 (fun x hx => he x (by simp [hx]))]

/-- C18: for a selector list produced by parsing, any delimiter setting and a
line that the scanner of every field scans without running out of table
entries (a line with fewer than 1024 fields), suppression inactive, the
output with the scan that stops at `selmax` is the output with the scan of
every field. -/
theorem ProcessLine_early_stop (arg : List Nat) (st : SelState) (optw : Bool)
    (delim : List Nat) (odelim : Nat) (line : List Nat) (tblAll : List (List Nat))
    (hparse : ListParseOpt arg = .ok st)
    (hall : scanFieldAll optw delim MAXFIELDS 0 line = .ok tblAll) :
    ProcessLine .FIELD false optw delim odelim st line =
      ProcessLineAllFields optw delim odelim st line := by
  have hends := ListParseOpt_ends arg st hparse
  obtain ⟨K, hK, hcase⟩ := scanField_take_all optw delim st.selmax MAXFIELDS 0 line tblAll hall
  simp only [ProcessLine, ProcessLineAllFields, SelectorGetMax, hK, hall]
  have hw : writeFields (tblAll.take K) odelim st.selectors 0
      = writeFields tblAll odelim st.selectors 0 := by
    rcases hcase with hc | ⟨hc1, hc2, hc3⟩
    · rw [hc, List.take_length]
    · apply writeFields_take tblAll odelim K hc2 hc3
      intro s hs
      have := hends s hs
      simp only [Nat.zero_add] at hc1
      omega
  rw [hw]
  simp

/-- C18 at the selector list of `2,1` over `a,b,c,d`: both scanners give the
output `b,a`. -/
theorem ProcessLine_early_stop_witness :
    ProcessLine .FIELD false false [44] 44
        { selectors := [{ begin := 2, end_ := 2 }, { begin := 1, end_ := 1 }], selmax := 2 }
        (bytes "a,b,c,d") =
      ProcessLineAllFields false [44] 44
        { selectors := [{ begin := 2, end_ := 2 }, { begin := 1, end_ := 1 }], selmax := 2 }
        (bytes "a,b,c,d") ∧
    ProcessLineAllFields false [44] 44
        { selectors := [{ begin := 2, end_ := 2 }, { begin := 1, end_ := 1 }], selmax := 2 }
        (bytes "a,b,c,d") = .ok (bytes "b,a\n") :=
  ⟨ProcessLine_early_stop (bytes "2,1")
    { selectors := [{ begin := 2, end_ := 2 }, { begin := 1, end_ := 1 }], selmax := 2 }
    false [44] 44 (bytes "a,b,c,d") [[97], [98], [99], [100]] (by decide) (by decide!),
   by decide!⟩

/-! ## Whitespace-collapsing mode -/

theorem words_blank_cons (b : Nat) (l : List Nat) (hb : isBlank b = true) :
    words (b :: l) = words l := by
  unfold words
  rw [List.splitOnP_cons, if_pos hb]
  rfl

theorem words_blanks (bs l : List Nat) (hb : ∀ c ∈ bs, isBlank c = true) :
    words (bs ++ l) = words l := by
  induction bs with
  | nil => rfl
  | cons b bs ih =>
    rw [List.cons_append, words_blank_cons b _ (hb b (by simp))]
    exact ih (fun c hc => hb c (by simp [hc]))

theorem words_single (w : List Nat) (hne : w ≠ []) (hw : ∀ c ∈ w, isBlank c = false) :
    words w = [w] := by
  unfold words
  rw [List.splitOnP_eq_single isBlank w (fun x hx => by simp [hw x hx])]
  cases w with
  | nil => exact absurd rfl hne
  | cons c cs => rfl

theorem words_word_cons (w : List Nat) (b : Nat) (l : List Nat) (hne : w ≠ [])
    (hw : ∀ c ∈ w, isBlank c = false) (hb : isBlank b = true) :
    words (w ++ b :: l) = w :: words l := by
  unfold words
  rw [List.splitOnP_first isBlank w (fun x hx => by simp [hw x hx]) b hb]
  cases w with
  | nil => exact absurd rfl hne
  | cons c cs => rfl

theorem EndsInWord.tail_of_append {pre rest : List Nat} (b : Nat)
    (h : EndsInWord (pre ++ b :: rest)) (hb : isBlank b = true) : EndsInWord rest := by
  obtain ⟨c, hc, hn⟩ := h
  cases rest with
  | nil =>
    rw [List.getLast?_concat] at hc
    have : b = c := Option.some.inj hc
    rw [this, hn] at hb
    exact absurd hb (by simp)
  | cons x xs =>
    refine ⟨c, ?_, hn⟩
    have h2 : pre ++ b :: x :: xs = (pre ++ [b]) ++ (x :: xs) := by simp
    rw [h2, List.getLast?_append_of_ne_nil _ (by simp)] at hc
    exact hc

/-- A line that ends in a word is some blanks, a word, and then either
nothing or a blank and a rest that ends in a word. -/
theorem EndsInWord.decompose (pos : List Nat) (h : EndsInWord pos) :
    ∃ bs w rest, pos = bs ++ (w ++ rest) ∧ (∀ c ∈ bs, isBlank c = true) ∧ w ≠ [] ∧
      (∀ c ∈ w, isBlank c = false) ∧
      (rest = [] ∨ ∃ b rest1, rest = b :: rest1 ∧ isBlank b = true ∧ EndsInWord rest1) := by
  have hpos : pos = pos.takeWhile isBlank ++
      ((pos.dropWhile isBlank).takeWhile (fun c => !isBlank c) ++
        (pos.dropWhile isBlank).dropWhile (fun c => !isBlank c)) := by
    rw [List.takeWhile_append_dropWhile, List.takeWhile_append_dropWhile]
  have hbs : ∀ c ∈ pos.takeWhile isBlank, isBlank c = true :=
    fun c hc => List.mem_takeWhile_imp hc
  have hw : ∀ c ∈ (pos.dropWhile isBlank).takeWhile (fun c => !isBlank c),
      isBlank c = false := by
    intro c hc
    have := List.mem_takeWhile_imp hc
    simpa using this
  have hne : (pos.dropWhile isBlank).takeWhile (fun c => !isBlank c) ≠ [] := by
    intro hnil
    cases hd : pos.dropWhile isBlank with
    | nil =>
      obtain ⟨c, hc, hn⟩ := h
      have hall : ∀ x ∈ pos, isBlank x = true := by
        have := List.dropWhile_eq_nil_iff.1 hd
        exact this
      have hmem : c ∈ pos := List.mem_of_getLast?_eq_some hc
      rw [hall c hmem] at hn
      exact absurd hn (by simp)
    | cons x xs =>
      have hx : isBlank x = false := by
        have := List.head_dropWhile_not isBlank pos (by rw [hd]; simp)
        simp only [hd, List.head_cons] at this
        simpa using this
      rw [hd, List.takeWhile_cons_of_pos (by simp [hx])] at hnil
      exact absurd hnil (by simp)
  refine ⟨_, _, _, hpos, hbs, hne, hw, ?_⟩
  cases hr : (pos.dropWhile isBlank).dropWhile (fun c => !isBlank c) with
  | nil => exact Or.inl rfl
  | cons b rest1 =>
    have hb : isBlank b = true := by
      have := List.head_dropWhile_not (fun c => !isBlank c) (pos.dropWhile isBlank)
        (by rw [hr]; simp)
      simp only [hr, List.head_cons] at this
      simpa using this
    refine Or.inr ⟨b, rest1, rfl, hb, ?_⟩
    rw [hr] at hpos
    rw [hpos, ← List.append_assoc] at h
    exact EndsInWord.tail_of_append b h hb

theorem blank_contains (c : Nat) : [9, 32].contains c = isBlank c := by
  unfold isBlank
  by_cases h1 : c = 9
  · subst h1; rfl
  · by_cases h2 : c = 32
    · subst h2; rfl
    · simp [h1, h2]

theorem isBlank_ne_zero (c : Nat) (h : isBlank c = true) : c ≠ 0 := by
  intro h0; subst h0; exact absurd h (by decide)

theorem strspn_blanks (bs w rest : List Nat) (hb : ∀ c ∈ bs, isBlank c = true)
    (hne : w ≠ []) (hw : ∀ c ∈ w, isBlank c = false) :
    strspn (bs ++ (w ++ rest)) [9, 32] = bs.length := by
  unfold strspn
  rw [List.takeWhile_append_of_pos]
  · cases w with
    | nil => exact absurd rfl hne
    | cons x xs =>
      rw [List.cons_append, List.takeWhile_cons_of_neg]
      · simp
      · show ¬ ((x != 0 && [9, 32].contains x) = true)
        rw [blank_contains, hw x (by simp)]
        simp
  · intro c hc
    have h1 := hb c hc
    have h2 := isBlank_ne_zero c h1
    simp only [blank_contains, h1, Bool.and_true, bne_iff_ne, ne_eq]
    exact h2

theorem strcspn_word (w rest : List Nat) (hw : ∀ c ∈ w, isBlank c = false)
    (h0 : ∀ c ∈ w, c ≠ 0)
    (hr : rest = [] ∨ ∃ b rest1, rest = b :: rest1 ∧ isBlank b = true) :
    strcspn (w ++ rest) [9, 32] = w.length := by
  unfold strcspn
  rw [List.takeWhile_append_of_pos]
  · rcases hr with hr | ⟨b, rest1, hr, hb⟩
    · subst hr; simp
    · subst hr
      rw [List.takeWhile_cons_of_neg]
      · simp
      · show ¬ ((b != 0 && not ([9, 32].contains b)) = true)
        rw [blank_contains, hb]
        simp
  · intro c hc
    have h1 := hw c hc
    have h2 := h0 c hc
    simp only [blank_contains, h1, Bool.not_false, Bool.and_true, bne_iff_ne, ne_eq]
    exact h2

theorem scanField_words (selmax : Int) (fuel : Nat) :
    ∀ (field : Nat) (pos : List Nat), EndsInWord pos → (∀ c ∈ pos, c ≠ 0) →
      ((field + (words pos).length : Nat) : Int) ≤ selmax →
      field + (words pos).length < MAXFIELDS → (words pos).length ≤ fuel →
      scanField true [9, 32] selmax fuel field pos = .ok (words pos) := by
  induction fuel with
  | zero =>
    intro field pos h _ _ _ hf
    obtain ⟨bs, w, rest, hpos, hb, hne, hw, hr⟩ := EndsInWord.decompose pos h
    rw [hpos, words_blanks bs _ hb] at hf
    rcases hr with hr | ⟨b, rest1, hr, hbl, _⟩
    · rw [hr, List.append_nil, words_single w hne hw] at hf
      simp at hf
    · rw [hr, words_word_cons w b rest1 hne hw hbl] at hf
      simp at hf
  | succ fuel ih =>
    intro field pos h hnul hmax hfield hf
    obtain ⟨bs, w, rest, hpos, hb, hne, hw, hr⟩ := EndsInWord.decompose pos h
    subst hpos
    have hnw : ∀ c ∈ w, c ≠ 0 := fun c hc => hnul c (by simp [hc])
    have hspn := strspn_blanks bs w rest hb hne hw
    have hcspn := strcspn_word w rest hw hnw
      (by
        rcases hr with hr | ⟨b, rest1, hr, hbl, _⟩
        · exact Or.inl hr
        · exact Or.inr ⟨b, rest1, hr, hbl⟩)
    rw [words_blanks bs _ hb] at hmax hfield hf ⊢
    simp only [scanField, if_true, hspn, List.drop_left, hcspn, List.take_left]
    rcases hr with hr | ⟨b, rest1, hr, hbl, hrest⟩
    · subst hr
      rw [List.append_nil] at hmax hfield hf ⊢
      rw [words_single w hne hw] at hmax hfield hf ⊢
      simp only [List.length_singleton] at hfield
      rw [if_neg (by omega)]
      simp [deref]
    · subst hr
      rw [words_word_cons w b rest1 hne hw hbl] at hmax hfield hf ⊢
      simp only [List.length_cons] at hmax hfield hf
      have hb0 : b ≠ 0 := isBlank_ne_zero b hbl
      have hwords1 : 1 ≤ (words rest1).length := by
        obtain ⟨bs2, w2, rest2, hpos2, hb2, hne2, hw2, hr2⟩ := EndsInWord.decompose rest1 hrest
        rw [hpos2, words_blanks bs2 _ hb2]
        rcases hr2 with hr2 | ⟨b2, rest3, hr2, hbl2, _⟩
        · rw [hr2, List.append_nil, words_single w2 hne2 hw2]; simp
        · rw [hr2, words_word_cons w2 b2 rest3 hne2 hw2 hbl2]; simp
      have hdrop : (w ++ b :: rest1).drop (w.length + 1) = rest1 := by
        rw [← List.drop_drop]
        simp
      have hrec := ih (field + 1) rest1 hrest (fun c hc => hnul c (by simp [hc]))
        (by push_cast at hmax ⊢; omega) (by omega) (by omega)
      rw [if_neg (by omega)]
      simp only [deref, List.headD_cons, hb0, decide_False, Bool.false_eq_true, if_false, hdrop]
      rw [if_neg (by push_cast at hmax ⊢; omega), hrec]

/-- C11, as the code has it: with `-w` (the delimiters tab and space), for a
line without NUL byte that has a non-blank character, does not end with a
blank and has fewer than 1024 words (in particular at most 511), and a
selector list whose `selmax` is at least the number of words, the fields
stored by the FIELD scan are exactly the words of the line, in order. -/
theorem scanField_whitespace_words (st : SelState) (line : List Nat)
    (hsome : ∃ c ∈ line, isBlank c = false)
    (hend : ∀ c, line.getLast? = some c → isBlank c = false)
    (hnul : ∀ c ∈ line, c ≠ 0)
    (hcount : (words line).length ≤ 1023)
    (hmax : ((words line).length : Int) ≤ st.selmax) :
    scanField true [9, 32] (SelectorGetMax st) MAXFIELDS 0 line = .ok (words line) := by
  have hword : EndsInWord line := by
    obtain ⟨c, hc, _⟩ := hsome
    cases hl : line.getLast? with
    | none =>
      rw [List.getLast?_eq_none_iff.1 hl] at hc
      exact absurd hc (by simp)
    | some x => exact ⟨x, hl, hend x hl⟩
  exact scanField_words st.selmax MAXFIELDS 0 line hword hnul
    (by simpa using hmax) (by simp only [MAXFIELDS]; omega) (by simp only [MAXFIELDS]; omega)

/-- C11 at the line `  a   b  c` with `selmax` 3: the fields `a`, `b`, `c`. -/
theorem scanField_whitespace_words_witness :
    words (bytes "  a   b  c") = [[97], [98], [99]] ∧
    scanField true [9, 32]
      (SelectorGetMax { selectors := [{ begin := 1, end_ := 3 }], selmax := 3 })
      MAXFIELDS 0 (bytes "  a   b  c") = .ok (words (bytes "  a   b  c")) :=
  ⟨by decide,
   scanField_whitespace_words { selectors := [{ begin := 1, end_ := 3 }], selmax := 3 }
    (bytes "  a   b  c") (by decide) (by decide) (by decide) (by decide) (by decide)⟩

/-- C11 fails as stated: the line `a NUL b` has the single word `a NUL b`,
but the scan stops at the NUL byte and stores the field `a`. -/
theorem scanField_whitespace_words_counterexample :
    (∃ c ∈ [97, 0, 98], isBlank c = false) ∧
    (∀ c, [97, 0, 98].getLast? = some c → isBlank c = false) ∧
    words [97, 0, 98] = [[97, 0, 98]] ∧
    scanField true [9, 32]
      (SelectorGetMax { selectors := [{ begin := 1, end_ := 1 }], selmax := 1 })
      MAXFIELDS 0 [97, 0, 98] = .ok [[97]] := by
  refine ⟨by decide, ?_, by decide, by decide⟩
  intro c hc
  have : c = 98 := (Option.some.inj hc).symm
  subst this
  decide

end Jlcut
